import Mathlib

/-!
Shallow embedding of the one-dimensional barcode decoding kernel of
`src/core/src/oned/ODRowReader.h` (class `ZXing::OneD::RowReader`), together
with proofs of the behavioural properties stated in the specification.

Modelling conventions:
* A `Row` is a `List Bool` of pixel classifications; iterator positions are
  `Nat` offsets, a `Range<Iterator>` is a pair of offsets.
* Counter containers are `List Nat` of run widths.
* `float` quantities (variances, thresholds) are modelled as exact rationals.
* Reverse iterators are modelled by their offset from `rbegin`; the iterator
  with offset `k` into the reversed range `[begin, end)` has `base() = end - k`
  and dereferences the element at original position `end - 1 - k`.
-/

namespace RowReader

/-- Modelled from the spec: the Row's "next position whose value differs from a
given value" query (`BitArray::getNextSetTo`, declared in `BitArray.h`, which is
not part of the embedded sources).  `nextSetTo row v i n` scans at most `n`
positions starting at `i` for the first one holding value `v`. -/
def nextSetTo (row : List Bool) (v : Bool) : Nat → Nat → Nat
  | i, 0 => i
  | i, n + 1 => if row.getD i false = v then i else nextSetTo row v (i + 1) n

/-- Modelled from the spec: `getNextSetTo(i, end, v)` returns the first position
in `[i, end)` whose pixel value is `v`, or `end` if there is none. -/
def getNextSetTo (row : List Bool) (i e : Nat) (v : Bool) : Nat :=
  nextSetTo row v i (e - i)

/-- The loop of `RowReader::FindPattern` (ODRowReader.h:105-123).  One call is
one iteration of the C++ `while` loop: state `(b, li, i, cs, c)` holds the
window start `begin`, the last boundary `li`, the scan cursor `i`, the counter
container and the index of `currentCounter`.  `fuel` bounds the number of
iterations; since the cursor advances strictly on every iteration, `e - i` is
such a bound, and with `fuel ≥ e - i` the `fuel = 0` equation is only ever
reached with `i ≥ e`, where it coincides with the loop-exit line 121 of the
source (`*currentCounter = i - li` with `i = end`). -/
def findLoop (row : List Bool) (e : Nat) (mtch : Nat → Nat → List Nat → Bool) :
    Nat → Nat → Nat → Nat → List Nat → Nat → (Nat × Nat) × List Nat
  | 0, _b, li, _i, cs, c => ((e, e), cs.set c (e - li))
  | fuel + 1, b, li, i, cs, c =>
    let j := getNextSetTo row i e (!(row.getD i false))
    if j < e then
      let cs' := cs.set c (j - li)
      if c + 1 = cs.length then
        if mtch b j cs' then ((b, j), cs')
        else
          findLoop row e mtch fuel (b + cs'.getD 0 0 + cs'.getD 1 0) j j
            (cs'.drop 2 ++ cs'.drop (cs'.length - 2)) (cs.length - 2)
      else findLoop row e mtch fuel b j j cs' (c + 1)
    else ((e, e), cs.set c (e - li))

/-- `RowReader::FindPattern` (ODRowReader.h:100-124): scans `[begin, end)` for a
window of `counters.size()` runs accepted by `match`; returns the window range
and the counters, or the empty range `(end, end)` on exhaustion. -/
def FindPattern (row : List Bool) (b e : Nat) (cs : List Nat)
    (mtch : Nat → Nat → List Nat → Bool) : (Nat × Nat) × List Nat :=
  if b = e then ((e, e), cs)
  else findLoop row e mtch (e - b) b b b cs 0

/-- `RowReader::RecordPattern` (ODRowReader.h:139-151): records the widths of
the first `counters.size()` runs starting at `begin`.  The last counter slot is
zeroed on entry; if the scan ran into `end` but the last slot was written
anyway, the result is accepted as `[begin, end)`. -/
def RecordPattern (row : List Bool) (b e : Nat) (cs : List Nat) :
    (Nat × Nat) × List Nat :=
  let cs0 := cs.set (cs.length - 1) 0
  let r := FindPattern row b e cs0 (fun _ _ _ => true)
  if r.1.2 = e ∧ r.2.getD (r.2.length - 1) 0 ≠ 0 then ((b, e), r.2) else r

/-- `RowReader::RecordPatternInReverse` (ODRowReader.h:153-159): runs
`RecordPattern` over the reverse iterators of `[begin, end)` (offset `k` reads
original position `end - 1 - k`), then reverses the counters and converts the
offsets back through `base()` (offset `k` has base `end - k`). -/
def RecordPatternInReverse (row : List Bool) (b e : Nat) (cs : List Nat) :
    (Nat × Nat) × List Nat :=
  let r := RecordPattern (((row.take e).drop b).reverse) 0 (e - b) cs
  ((e - r.1.2, e - r.1.1), r.2.reverse)

/-- Specification-side measure: the number of colour boundaries strictly inside
`(b, e)`, i.e. positions `p` with `b < p < e` whose pixel differs from the one
at `p - 1`.  The `k`-th boundary found by the scan loop is the `k`-th such
position. -/
def changes (row : List Bool) (b e : Nat) : Nat :=
  ((Finset.range e).filter fun p =>
    b < p ∧ row.getD p false ≠ row.getD (p - 1) false).card

example : getNextSetTo [true, true, false] 0 3 false = 2 := by decide
example : RecordPattern [true, false] 0 2 [5, 5] = ((0, 2), [1, 1]) := by decide
example : RecordPattern [true, true, false, false, false] 0 5 [9, 9, 9, 9]
    = ((5, 5), [2, 3, 9, 0]) := by decide
example : changes [true, true, false, false, false] 0 5 = 1 := by decide
example : RecordPatternInReverse [true, false, false] 0 3 [5, 5]
    = ((0, 3), [1, 2]) := by decide

/-! ### Fit scoring and digit resolution -/

/-- Modelled from the spec (§4.3): the sentinel returned when an individual
variance ratio exceeds its bound — "a sentinel value larger than any acceptable
score" (the C++ implementation in `RowReader.cpp` is not part of the embedded
sources and returns `numeric_limits<float>::max()`).  Any value above `2` is
larger than every accumulated score, since `totalDeviation ≤ 2 * total`. -/
def sentinelVariance : ℚ := 2 ^ 30

/-- Modelled from the spec (§4.3): the expected width of run `i`,
`pattern[i] * unitWidth` with `unitWidth = total / patternTotal`. -/
def expectedWidth (counters pattern : List ℚ) (i : Nat) : ℚ :=
  pattern.getD i 0 * (counters.sum / pattern.sum)

/-- Modelled from the spec (§4.3): `|counters[i] - expected|`, the absolute
deviation of run `i` from its expected proportional width. -/
def deviation (counters pattern : List ℚ) (i : Nat) : ℚ :=
  |counters.getD i 0 - expectedWidth counters pattern i|

/-- Modelled from the spec (§4.3): deviation accumulated across all positions
(the loop runs over `counters.size()` positions, cf. the wrapper at
ODRowReader.h:171-175 which passes `counters.size()` as `length`). -/
def totalDeviation (counters pattern : List ℚ) : ℚ :=
  ∑ i in Finset.range counters.length, deviation counters pattern i

/-- Modelled from the spec (§4.3): the accumulated score
`totalDeviation / total` returned when no individual ratio is out of bounds. -/
def rawVariance (counters pattern : List ℚ) : ℚ :=
  totalDeviation counters pattern / counters.sum

/-- Modelled from the spec: `RowReader::PatternMatchVariance` (declared at
ODRowReader.h:207; its definition lives in `RowReader.cpp`, which is not part
of the embedded sources).  Per §4.3 of the spec: if any individual variance
ratio `deviation / expected` exceeds `maxIndividualVariance`, a sentinel larger
than any acceptable score is returned; otherwise the accumulated
`totalDeviation / total`.  (In `ℚ`, division by zero yields `0`, which realises
the spec's "guarded against division by values near zero".) -/
def PatternMatchVariance (counters pattern : List ℚ)
    (maxIndividualVariance : ℚ) : ℚ :=
  if ∃ i ∈ Finset.range counters.length,
      maxIndividualVariance <
        deviation counters pattern i / expectedWidth counters pattern i
  then sentinelVariance
  else rawVariance counters pattern

/-- One iteration of the `DecodeDigit` loop body (ODRowReader.h:193-202), on
the state `(bestVariance, bestMatch)`. -/
def decodeDigitStep (requireUnambiguousMatch : Bool) (st : ℚ × ℤ) (i : Nat)
    (variance : ℚ) : ℚ × ℤ :=
  if variance < st.1 then (variance, (i : ℤ))
  else if requireUnambiguousMatch = true ∧ variance = st.1 then (st.1, -1)
  else st

/-- `RowReader::DecodeDigit` (ODRowReader.h:186-204).  The variance function
`pmv` is a parameter because `PatternMatchVariance`'s definition is outside the
embedded sources (see `PatternMatchVariance` for the spec-modelled instance);
every theorem below holds for an arbitrary `pmv`. -/
def DecodeDigit (pmv : List ℚ → List ℚ → ℚ → ℚ) (counters : List ℚ)
    (patterns : List (List ℚ)) (maxAvgVariance maxIndividualVariance : ℚ)
    (requireUnambiguousMatch : Bool) : ℤ :=
  ((List.range patterns.length).foldl
    (fun st i =>
      decodeDigitStep requireUnambiguousMatch st i
        (pmv counters (patterns.getD i []) maxIndividualVariance))
    (maxAvgVariance, -1)).2

example :
    DecodeDigit (fun _ p _ => p.sum) [] [[1], [2], [1]] 5 1 true = -1 := by
  norm_num [DecodeDigit, decodeDigitStep, List.range_succ]
example :
    DecodeDigit (fun _ p _ => p.sum) [] [[2], [1], [3]] 5 1 true = 1 := by
  norm_num [DecodeDigit, decodeDigitStep, List.range_succ]
example :
    DecodeDigit (fun _ p _ => p.sum) [] [[1], [2], [1]] 5 1 false = 0 := by
  norm_num [DecodeDigit, decodeDigitStep, List.range_succ]
example : PatternMatchVariance [3, 6] [1, 2] 0 = 0 := by
  norm_num [PatternMatchVariance, deviation, expectedWidth, rawVariance,
    totalDeviation, Finset.sum_range_succ, Finset.range_succ,
    Finset.exists_mem_insert]
example : PatternMatchVariance [96, 26, 26, 52] [1, 1, 1, 1] (9 / 10)
    = sentinelVariance := by
  norm_num [PatternMatchVariance, deviation, expectedWidth, rawVariance,
    totalDeviation, Finset.sum_range_succ, Finset.range_succ,
    Finset.exists_mem_insert]
example : PatternMatchVariance [96, 26, 26, 72] [1, 1, 1, 1] (9 / 10)
    = 29 / 55 := by
  norm_num [PatternMatchVariance, deviation, expectedWidth, rawVariance,
    totalDeviation, Finset.sum_range_succ, Finset.range_succ,
    Finset.exists_mem_insert]

/-! ### Narrow/wide classification -/

/-- Modelled from the spec: the maximum representable run width,
`std::numeric_limits<BarAndSpaceI::value_type>::max()` (the `BarAndSpaceI`
value type is defined in `Pattern.h`, which is not part of the embedded
sources; run widths are small unsigned integers). -/
def widthMax : Nat := 65535

/-- Modelled from the spec (§3, "BarAndSpace pair"): a two-element value
distinguishing "bar" and "space" measurements.  Elements of a run-width window
alternate bar/space, so index `i` refers to the bar field when `i` is even and
to the space field when `i` is odd (`Pattern.h` is not part of the embedded
sources). -/
structure BarAndSpace where
  bar : Nat := 0
  space : Nat := 0
deriving DecidableEq

/-- Index access `bs[i]`: bar for even `i`, space for odd `i`. -/
def BarAndSpace.idx (bs : BarAndSpace) (i : Nat) : Nat :=
  if i % 2 = 0 then bs.bar else bs.space

/-- Index update `bs[i] = x`: bar for even `i`, space for odd `i`. -/
def BarAndSpace.setIdx (bs : BarAndSpace) (i : Nat) (x : Nat) : BarAndSpace :=
  if i % 2 = 0 then { bs with bar := x } else { bs with space := x }

/-- Modelled from the spec: a threshold pair is valid when both components are
nonzero (`return {}` yields the invalid `⟨0, 0⟩` pair). -/
def BarAndSpace.isValid (bs : BarAndSpace) : Bool :=
  bs.bar != 0 && bs.space != 0

/-- The min/max loop of `NarrowWideThreshold` (ODRowReader.h:220-226):
per-type minimum and maximum of the window's run widths. -/
def minMaxBS (view : List Nat) : BarAndSpace × BarAndSpace :=
  view.enum.foldl
    (fun mM iv =>
      (mM.1.setIdx iv.1 (min (mM.1.idx iv.1) iv.2),
       mM.2.setIdx iv.1 (max (mM.2.idx iv.1) iv.2)))
    (⟨widthMax, widthMax⟩, ⟨0, 0⟩)

/-- `RowReader::NarrowWideThreshold` (ODRowReader.h:218-240): sanity-checks the
window's per-type min/max and returns `max((m + M) / 2, m * 3 / 2)` per type,
or the invalid `⟨0, 0⟩` pair.  The checks run for `i = 0` then `i = 1`,
each comparing against the other type via index `i + 1` (mod 2). -/
def NarrowWideThreshold (view : List Nat) : BarAndSpace :=
  let mM := minMaxBS view
  let m := mM.1
  let M := mM.2
  if 4 * (m.idx 0 + 1) < M.idx 0 ∨ 3 * M.idx 1 < M.idx 0 ∨
      2 * (m.idx 1 + 1) < m.idx 0 then ⟨0, 0⟩
  else if 4 * (m.idx 1 + 1) < M.idx 1 ∨ 3 * M.idx 2 < M.idx 1 ∨
      2 * (m.idx 2 + 1) < m.idx 1 then ⟨0, 0⟩
  else ⟨max ((m.idx 0 + M.idx 0) / 2) (m.idx 0 * 3 / 2),
        max ((m.idx 1 + M.idx 1) / 2) (m.idx 1 * 3 / 2)⟩

/-- `RowReader::ToNarrowWidePattern` (ODRowReader.h:246-260): classifies each
run against its per-type threshold into a bitfield (MSB first, 1 = wide);
a run wider than twice its threshold, or an invalid threshold, yields `-1`. -/
def ToNarrowWidePattern (view : List Nat) : ℤ :=
  let threshold := NarrowWideThreshold view
  if threshold.isValid = true then
    match view.enum.foldl
        (fun (acc : Option ℤ) iv =>
          match acc with
          | none => none
          | some pattern =>
            if threshold.idx iv.1 * 2 < iv.2 then none
            else some (pattern * 2 + if threshold.idx iv.1 < iv.2 then 1 else 0))
        (some 0) with
    | none => -1
    | some pattern => pattern
  else -1

example : NarrowWideThreshold [2, 6, 2, 6] = ⟨3, 9⟩ := by decide
example : NarrowWideThreshold [2, 2, 6, 6] = ⟨4, 4⟩ := by decide
example : NarrowWideThreshold [2, 5, 9, 5] = ⟨5, 7⟩ := by decide
example : ToNarrowWidePattern [2, 6, 2, 6] = 0 := by decide
example : ToNarrowWidePattern [2, 2, 6, 6] = 3 := by decide

/-! ### Basic lemmas about the scan primitive -/

theorem nextSetTo_ge (row : List Bool) (v : Bool) :
    ∀ n i, i ≤ nextSetTo row v i n := by
  intro n
  induction n with
  | zero => intro i; simp [nextSetTo]
  | succ n ih =>
    intro i
    simp only [nextSetTo]
    split
    · exact le_refl i
    · exact le_trans (Nat.le_succ i) (ih (i + 1))

theorem nextSetTo_le (row : List Bool) (v : Bool) :
    ∀ n i, nextSetTo row v i n ≤ i + n := by
  intro n
  induction n with
  | zero => intro i; simp [nextSetTo]
  | succ n ih =>
    intro i
    simp only [nextSetTo]
    split
    · omega
    · have := ih (i + 1); omega

theorem nextSetTo_min (row : List Bool) (v : Bool) :
    ∀ n i p, i ≤ p → p < nextSetTo row v i n → row.getD p false ≠ v := by
  intro n
  induction n with
  | zero => intro i p hip hp; simp [nextSetTo] at hp; omega
  | succ n ih =>
    intro i p hip hp
    simp only [nextSetTo] at hp
    by_cases h : row.getD i false = v
    · rw [if_pos h] at hp; omega
    · rw [if_neg h] at hp
      rcases Nat.eq_or_lt_of_le hip with rfl | hlt
      · exact h
      · exact ih (i + 1) p hlt hp

theorem nextSetTo_hit (row : List Bool) (v : Bool) :
    ∀ n i, nextSetTo row v i n < i + n →
      row.getD (nextSetTo row v i n) false = v := by
  intro n
  induction n with
  | zero => intro i h; simp [nextSetTo] at h
  | succ n ih =>
    intro i h
    simp only [nextSetTo] at h ⊢
    by_cases hv : row.getD i false = v
    · rw [if_pos hv]; exact hv
    · rw [if_neg hv] at h ⊢
      exact ih (i + 1) (by omega)

theorem getNextSetTo_ge (row : List Bool) (i e : Nat) (v : Bool) :
    i ≤ getNextSetTo row i e v :=
  nextSetTo_ge row v (e - i) i

theorem getNextSetTo_le (row : List Bool) (i e : Nat) (v : Bool) (h : i ≤ e) :
    getNextSetTo row i e v ≤ e := by
  have := nextSetTo_le row v (e - i) i
  unfold getNextSetTo
  omega

theorem getNextSetTo_min (row : List Bool) (i e : Nat) (v : Bool) (p : Nat)
    (hip : i ≤ p) (hp : p < getNextSetTo row i e v) : row.getD p false ≠ v :=
  nextSetTo_min row v (e - i) i p hip hp

theorem getNextSetTo_hit (row : List Bool) (i e : Nat) (v : Bool)
    (h : getNextSetTo row i e v < e) :
    row.getD (getNextSetTo row i e v) false = v := by
  unfold getNextSetTo at h ⊢
  apply nextSetTo_hit
  have := nextSetTo_ge row v (e - i) i
  omega

theorem getNextSetTo_gt (row : List Bool) (i e : Nat) (v : Bool) (hie : i < e)
    (hv : row.getD i false ≠ v) : i < getNextSetTo row i e v := by
  unfold getNextSetTo
  have he : e - i = (e - i - 1) + 1 := by omega
  rw [he]
  simp only [nextSetTo]
  rw [if_neg hv]
  have := nextSetTo_ge row v (e - i - 1) (i + 1)
  omega

theorem bool_eq_of_ne_ne : ∀ a b v : Bool, a ≠ v → b ≠ v → a = b := by decide

/-- The boundary found from cursor `i` is the first colour change after `i`:
the count of changes from `i` is one more than the count from that boundary. -/
theorem changes_found (row : List Bool) (i e : Nat) (hie : i < e)
    (hj : getNextSetTo row i e (!(row.getD i false)) < e) :
    changes row i e
      = changes row (getNextSetTo row i e (!(row.getD i false))) e + 1 := by
  have hvne : row.getD i false ≠ !(row.getD i false) := by simp
  have hij : i < getNextSetTo row i e (!(row.getD i false)) :=
    getNextSetTo_gt row i e _ hie hvne
  have hmin : ∀ p, i ≤ p → p < getNextSetTo row i e (!(row.getD i false)) →
      row.getD p false ≠ !(row.getD i false) :=
    fun p h1 h2 => getNextSetTo_min row i e _ p h1 h2
  have hhit :
      row.getD (getNextSetTo row i e (!(row.getD i false))) false
        = !(row.getD i false) := getNextSetTo_hit row i e _ hj
  generalize hj_def : getNextSetTo row i e (!(row.getD i false)) = j at *
  have hset :
      ((Finset.range e).filter fun p =>
          i < p ∧ row.getD p false ≠ row.getD (p - 1) false)
        = insert j ((Finset.range e).filter fun p =>
            j < p ∧ row.getD p false ≠ row.getD (p - 1) false) := by
    ext p
    simp only [Finset.mem_insert, Finset.mem_filter, Finset.mem_range]
    constructor
    · rintro ⟨hpe, hip, hchg⟩
      rcases lt_trichotomy p j with hpj | rfl | hjp
      · exfalso
        apply hchg
        have h1 := hmin p (le_of_lt hip) hpj
        have h2 := hmin (p - 1) (by omega) (by omega)
        exact bool_eq_of_ne_ne _ _ _ h1 h2
      · exact Or.inl rfl
      · exact Or.inr ⟨hpe, hjp, hchg⟩
    · rintro (rfl | ⟨hpe, hjp, hchg⟩)
      · refine ⟨hj, hij, ?_⟩
        have h4 := hmin (p - 1) (by omega) (by omega)
        rw [hhit]
        exact fun h => h4 h.symm
      · exact ⟨hpe, lt_trans hij hjp, hchg⟩
  have hnotmem : j ∉ (Finset.range e).filter fun p =>
      j < p ∧ row.getD p false ≠ row.getD (p - 1) false := by
    simp [Finset.mem_filter]
  unfold changes
  rw [hset, Finset.card_insert_of_not_mem hnotmem]

/-- If no colour change is found before `e`, there is none in `(i, e)`. -/
theorem changes_exhausted (row : List Bool) (i e : Nat) (hie : i < e)
    (hj : ¬ getNextSetTo row i e (!(row.getD i false)) < e) :
    changes row i e = 0 := by
  have hmin : ∀ p, i ≤ p → p < getNextSetTo row i e (!(row.getD i false)) →
      row.getD p false ≠ !(row.getD i false) :=
    fun p h1 h2 => getNextSetTo_min row i e _ p h1 h2
  have hje : getNextSetTo row i e (!(row.getD i false)) ≤ e :=
    getNextSetTo_le row i e _ (le_of_lt hie)
  generalize hj_def : getNextSetTo row i e (!(row.getD i false)) = j at *
  unfold changes
  rw [Finset.card_eq_zero, Finset.filter_eq_empty_iff]
  intro p hpe
  rw [Finset.mem_range] at hpe
  rintro ⟨hip, hchg⟩
  apply hchg
  have h1 := hmin p (le_of_lt hip) (by omega)
  have h2 := hmin (p - 1) (by omega) (by omega)
  exact bool_eq_of_ne_ne _ _ _ h1 h2

/-! ### List helper lemmas -/

theorem getD_set_self (l : List Nat) (c w : Nat) (h : c < l.length) :
    (l.set c w).getD c 0 = w := by
  rw [List.getD_eq_getElem?_getD, List.getElem?_set_self h]
  rfl

theorem getD_set_ne (l : List Nat) (c k w : Nat) (h : c ≠ k) :
    (l.set c w).getD k 0 = l.getD k 0 := by
  rw [List.getD_eq_getElem?_getD, List.getElem?_set_ne h,
    ← List.getD_eq_getElem?_getD]

theorem sum_take_set_succ (l : List Nat) :
    ∀ c w, c < l.length → ((l.set c w).take (c + 1)).sum = (l.take c).sum + w := by
  induction l with
  | nil => intro c w h; simp at h
  | cons a l ih =>
    intro c w h
    cases c with
    | zero => simp
    | succ c =>
      simp only [List.set, List.take, List.sum_cons]
      rw [ih c w (by simpa using h)]
      omega

theorem sum_set_last (l : List Nat) (c w : Nat) (h : c + 1 = l.length) :
    (l.set c w).sum = (l.take c).sum + w := by
  rw [List.sum_set]
  rw [if_pos (by omega)]
  have : l.drop (c + 1) = [] := List.drop_eq_nil_of_le (by omega)
  rw [this]
  simp

/-! ### The `FindPattern` loop with an always-accepting predicate -/

/-- Master invariant lemma for the scan loop as used by `RecordPattern`
(`match` constantly true).  From a state where `c` runs have been recorded
(summing to `i - b`), the loop either finds `cs.length - c` more boundaries and
returns the full window `[b, j)` with counters summing to its length, or runs
into `e`, leaving slots above the last written one untouched and writing a
positive final width; when exactly the last slot was reached, all counters sum
to `e - b`. -/
theorem findLoop_true_spec (row : List Bool) (e : Nat) :
    ∀ (fuel b i c : Nat) (cs : List Nat), c < cs.length → i < e →
      e - i ≤ fuel → i = b + (cs.take c).sum →
      ∀ rr, rr = findLoop row e (fun _ _ _ => true) fuel b i i cs c →
      rr.2.length = cs.length ∧
      (cs.length - c ≤ changes row i e →
        rr.1.1 = b ∧ b < rr.1.2 ∧ rr.1.2 < e ∧ b + rr.2.sum = rr.1.2 ∧
        1 ≤ rr.2.getD (cs.length - 1) 0) ∧
      (changes row i e < cs.length - c →
        rr.1 = (e, e) ∧
        (∀ k, c + changes row i e < k → rr.2.getD k 0 = cs.getD k 0) ∧
        1 ≤ rr.2.getD (c + changes row i e) 0 ∧
        (c + changes row i e + 1 = cs.length → b + rr.2.sum = e)) := by
  intro fuel
  induction fuel with
  | zero =>
    intro b i c cs hc hie hfuel
    exact absurd hfuel (by omega)
  | succ fuel ih =>
    intro b i c cs hc hie hfuel hinv rr hrr
    have hvne : row.getD i false ≠ !(row.getD i false) := by simp
    simp only [findLoop] at hrr
    by_cases hj : getNextSetTo row i e (!(row.getD i false)) < e
    · have hij : i < getNextSetTo row i e (!(row.getD i false)) :=
        getNextSetTo_gt row i e _ hie hvne
      have hchg := changes_found row i e hie hj
      generalize hj_def : getNextSetTo row i e (!(row.getD i false)) = j
        at hj hij hchg hrr
      rw [if_pos hj] at hrr
      by_cases hcase : c + 1 = cs.length
      · rw [if_pos hcase] at hrr
        simp only [if_true] at hrr
        subst hrr
        refine ⟨by simp, fun _ => ?_, fun hB => ?_⟩
        · refine ⟨rfl, ?_, hj, ?_, ?_⟩
          · show b < j
            omega
          · show b + (cs.set c (j - i)).sum = j
            have hsum := sum_set_last cs c (j - i) hcase
            rw [hsum]
            omega
          · show 1 ≤ (cs.set c (j - i)).getD (cs.length - 1) 0
            rw [show cs.length - 1 = c by omega, getD_set_self cs c _ hc]
            omega
        · exfalso; omega
      · rw [if_neg hcase] at hrr
        have hlen' : c + 1 < (cs.set c (j - i)).length := by
          rw [List.length_set]; omega
        have hinv' : j = b + ((cs.set c (j - i)).take (c + 1)).sum := by
          rw [sum_take_set_succ cs c (j - i) hc]; omega
        have h' := ih b j (c + 1) (cs.set c (j - i)) hlen' hj (by omega)
          hinv' rr hrr
        have hlen2 : (cs.set c (j - i)).length = cs.length := List.length_set ..
        rw [hlen2] at h'
        refine ⟨h'.1, fun hA => ?_, fun hB => ?_⟩
        · exact h'.2.1 (by omega)
        · obtain ⟨hr1, hslots, hpos, hflush⟩ := h'.2.2 (by omega)
          have hidx : c + 1 + changes row j e = c + changes row i e := by omega
          refine ⟨hr1, fun k hk => ?_, ?_, fun hfl => ?_⟩
          · rw [hslots k (by omega), getD_set_ne cs c k (j - i) (by omega)]
          · rw [hidx] at hpos; exact hpos
          · exact hflush (by omega)
    · rw [if_neg hj] at hrr
      subst hrr
      have hchg0 := changes_exhausted row i e hie hj
      refine ⟨by simp, fun hA => ?_, fun _ => ?_⟩
      · exfalso; omega
      · refine ⟨rfl, fun k hk => ?_, ?_, fun hfl => ?_⟩
        · exact getD_set_ne cs c k (e - i) (by omega)
        · rw [hchg0]
          simp only [Nat.add_zero]
          rw [getD_set_self cs c (e - i) hc]
          omega
        · rw [hchg0] at hfl
          simp only [Nat.add_zero] at hfl
          show b + (cs.set c (e - i)).sum = e
          have hsum := sum_set_last cs c (e - i) hfl
          rw [hsum]
          omega

/-- `RecordPattern` on the empty range: the empty range is returned and only
the zeroing of the last counter slot is observed. -/
theorem RecordPattern_empty (row : List Bool) (e : Nat) (cs : List Nat)
    (hN : 0 < cs.length) :
    RecordPattern row e e cs = ((e, e), cs.set (cs.length - 1) 0) := by
  simp only [RecordPattern, FindPattern, if_true]
  rw [if_neg]
  rintro ⟨-, hne⟩
  apply hne
  rw [List.length_set]
  exact getD_set_self cs (cs.length - 1) 0 (by omega)

/-- Full case analysis of `RecordPattern` on a nonempty range, driven by the
number of colour changes inside it: at least `N` changes give the full window
`[b, j)` with `j < e`; exactly `N - 1` changes give the flush-accepted range
`[b, e)`; fewer give the not-found sentinel `(e, e)` with the last slot
still zero. -/
theorem RecordPattern_spec (row : List Bool) (b e : Nat) (cs : List Nat)
    (hN : 0 < cs.length) (hbe : b < e) :
    ∀ rr, rr = RecordPattern row b e cs →
      rr.2.length = cs.length ∧
      (cs.length ≤ changes row b e →
        rr.1.1 = b ∧ b < rr.1.2 ∧ rr.1.2 < e ∧ b + rr.2.sum = rr.1.2 ∧
        1 ≤ rr.2.getD (cs.length - 1) 0) ∧
      (changes row b e + 1 = cs.length →
        rr.1.1 = b ∧ rr.1.2 = e ∧ b + rr.2.sum = e ∧
        1 ≤ rr.2.getD (cs.length - 1) 0) ∧
      (changes row b e + 1 < cs.length →
        rr.1.1 = e ∧ rr.1.2 = e ∧ rr.2.getD (cs.length - 1) 0 = 0) := by
  intro rr hrr
  simp only [RecordPattern, FindPattern] at hrr
  rw [if_neg (by omega : ¬ b = e)] at hrr
  have hlen0 : (cs.set (cs.length - 1) 0).length = cs.length := List.length_set ..
  have hback0 : (cs.set (cs.length - 1) 0).getD (cs.length - 1) 0 = 0 :=
    getD_set_self cs (cs.length - 1) 0 (by omega)
  generalize hr0 :
    findLoop row e (fun _ _ _ => true) (e - b) b b b (cs.set (cs.length - 1) 0) 0
      = r0 at hrr
  have h := findLoop_true_spec row e (e - b) b b 0 (cs.set (cs.length - 1) 0)
    (by omega) hbe (le_refl _) (by simp) r0 hr0.symm
  rw [hlen0] at h
  obtain ⟨hlen, hA, hB⟩ := h
  rcases Nat.lt_or_ge (changes row b e) cs.length with hch | hch
  · obtain ⟨hr1, hslots, hpos, hflush⟩ := hB (by omega)
    rcases Nat.eq_or_lt_of_le (by omega : changes row b e + 1 ≤ cs.length)
      with hfl | hlt
    · -- flush-accepted case
      have hsum := hflush (by omega)
      have hback : 1 ≤ r0.2.getD (cs.length - 1) 0 := by
        rw [show cs.length - 1 = 0 + changes row b e by omega]
        exact hpos
      rw [if_pos ⟨by rw [hr1], by rw [hlen]; omega⟩] at hrr
      subst hrr
      refine ⟨hlen, fun h => by omega, fun _ => ⟨rfl, rfl, hsum, hback⟩,
        fun h => by omega⟩
    · -- not-found case
      have hback : r0.2.getD (cs.length - 1) 0 = 0 := by
        rw [hslots (cs.length - 1) (by omega)]
        exact hback0
      rw [if_neg (by rw [hlen]; exact fun h => h.2 hback)] at hrr
      subst hrr
      exact ⟨hlen, fun h => by omega, fun h => by omega,
        fun _ => ⟨by rw [hr1], by rw [hr1], hback⟩⟩
  · -- full-window case
    obtain ⟨hr1, hblt, hlte, hsum, hback⟩ := hA (by omega)
    rw [if_neg (by rw [hlen]; rintro ⟨h1, -⟩; omega)] at hrr
    subst hrr
    exact ⟨hlen, fun _ => ⟨hr1, hblt, hlte, hsum, hback⟩, fun h => by omega,
      fun h => by omega⟩

/-! ### Claim C2 -/

/-- C2: For every Row, every position range `[b, e)` and every counters array,
`RecordPattern` either fails with the NotFound sentinel (an empty range) or
returns a range starting at `b` whose length equals exactly the sum of the
recorded counter values (all `cs.length` of them). -/
theorem RecordPattern_sum_consumed (row : List Bool) (b e : Nat)
    (cs : List Nat) (hN : 0 < cs.length) (hbe : b ≤ e) :
    (RecordPattern row b e cs).1.1 = (RecordPattern row b e cs).1.2 ∨
    ((RecordPattern row b e cs).1.1 = b ∧
      (RecordPattern row b e cs).2.length = cs.length ∧
      b + (RecordPattern row b e cs).2.sum = (RecordPattern row b e cs).1.2) := by
  rcases Nat.eq_or_lt_of_le hbe with rfl | hlt
  · rw [RecordPattern_empty row b cs hN]
    exact Or.inl rfl
  · obtain ⟨hlen, hA, hFlush, hNF⟩ :=
      RecordPattern_spec row b e cs hN hlt _ rfl
    rcases Nat.lt_or_ge (changes row b e) cs.length with hch | hch
    · rcases Nat.eq_or_lt_of_le (show changes row b e + 1 ≤ cs.length by omega)
        with hfl | hlt2
      · obtain ⟨h1, h2, h3, -⟩ := hFlush hfl
        exact Or.inr ⟨h1, hlen, by rw [h2]; exact h3⟩
      · obtain ⟨h1, h2, -⟩ := hNF hlt2
        exact Or.inl (by rw [h1, h2])
    · obtain ⟨h1, -, -, h4, -⟩ := hA hch
      exact Or.inr ⟨h1, hlen, h4⟩

/-- Witness for C2 at a concrete input. -/
theorem RecordPattern_sum_consumed_witness :
    (RecordPattern [true, false] 0 2 [5, 5]).1.1
        = (RecordPattern [true, false] 0 2 [5, 5]).1.2 ∨
    ((RecordPattern [true, false] 0 2 [5, 5]).1.1 = 0 ∧
      (RecordPattern [true, false] 0 2 [5, 5]).2.length
        = ([5, 5] : List Nat).length ∧
      0 + (RecordPattern [true, false] 0 2 [5, 5]).2.sum
        = (RecordPattern [true, false] 0 2 [5, 5]).1.2) :=
  RecordPattern_sum_consumed [true, false] 0 2 [5, 5] (by decide) (by decide)

/-! ### Claim C3 -/

/-- C3: `RecordPattern` signals not-found exactly when the Row is exhausted
before `N` runs are completed — the returned range is empty iff the input range
is empty or fewer than `N - 1` colour boundaries exist in it — with the single
exception that reaching `end` exactly while the `N`-th run is recorded (exactly
`N - 1` boundaries; the final width is still written, and is positive) is
accepted with the returned range `[begin, end)`. -/
theorem RecordPattern_notFound_iff (row : List Bool) (b e : Nat)
    (cs : List Nat) (hN : 0 < cs.length) (hbe : b ≤ e) :
    ((RecordPattern row b e cs).1.1 = (RecordPattern row b e cs).1.2 ↔
      b = e ∨ changes row b e + 1 < cs.length) ∧
    (b < e → changes row b e + 1 = cs.length →
      (RecordPattern row b e cs).1.1 = b ∧
      (RecordPattern row b e cs).1.2 = e ∧
      1 ≤ (RecordPattern row b e cs).2.getD (cs.length - 1) 0) := by
  rcases Nat.eq_or_lt_of_le hbe with rfl | hlt
  · rw [RecordPattern_empty row b cs hN]
    exact ⟨by simp, fun h => by omega⟩
  · obtain ⟨hlen, hA, hFlush, hNF⟩ :=
      RecordPattern_spec row b e cs hN hlt _ rfl
    rcases Nat.lt_or_ge (changes row b e) cs.length with hch | hch
    · rcases Nat.eq_or_lt_of_le (show changes row b e + 1 ≤ cs.length by omega)
        with hfl | hlt2
      · obtain ⟨h1, h2, -, h4⟩ := hFlush hfl
        refine ⟨?_, fun _ _ => ⟨h1, h2, h4⟩⟩
        rw [h1, h2]
        constructor
        · intro h; omega
        · intro h; omega
      · obtain ⟨h1, h2, -⟩ := hNF hlt2
        refine ⟨?_, fun _ hfl => by omega⟩
        rw [h1, h2]
        constructor
        · intro _; exact Or.inr hlt2
        · intro _; rfl
    · obtain ⟨h1, h2, -, -, -⟩ := hA hch
      refine ⟨?_, fun _ hfl => by omega⟩
      rw [h1]
      constructor
      · intro h; omega
      · intro h; omega

/-- Witness for C3 at a concrete input (a row with a single boundary and four
counter slots: not found). -/
theorem RecordPattern_notFound_iff_witness :
    ((RecordPattern [true, true, false, false, false] 0 5 [9, 9, 9, 9]).1.1
        = (RecordPattern [true, true, false, false, false] 0 5 [9, 9, 9, 9]).1.2
      ↔ (0 : Nat) = 5 ∨
        changes [true, true, false, false, false] 0 5 + 1
          < ([9, 9, 9, 9] : List Nat).length) ∧
    ((0 : Nat) < 5 →
      changes [true, true, false, false, false] 0 5 + 1
          = ([9, 9, 9, 9] : List Nat).length →
      (RecordPattern [true, true, false, false, false] 0 5 [9, 9, 9, 9]).1.1 = 0 ∧
      (RecordPattern [true, true, false, false, false] 0 5 [9, 9, 9, 9]).1.2 = 5 ∧
      1 ≤ (RecordPattern [true, true, false, false, false] 0 5
            [9, 9, 9, 9]).2.getD (([9, 9, 9, 9] : List Nat).length - 1) 0) :=
  RecordPattern_notFound_iff [true, true, false, false, false] 0 5 [9, 9, 9, 9]
    (by decide) (by decide)

/-! ### Claim C9 -/

/-- C9: For every nonempty input range, `RecordPattern` returns the empty
(NotFound) range iff the last counter slot is `0` at return; and on failure the
earlier slots may already hold partially recorded widths — witnessed
concretely: scanning `[T,T,F,F,F]` with four slots fails yet rewrites the
counters from `[9,9,9,9]` to `[2,3,9,0]`. -/
theorem RecordPattern_notFound_iff_back_zero (row : List Bool) (b e : Nat)
    (cs : List Nat) (hN : 0 < cs.length) (hbe : b < e) :
    ((RecordPattern row b e cs).1.1 = (RecordPattern row b e cs).1.2 ↔
      (RecordPattern row b e cs).2.getD (cs.length - 1) 0 = 0) ∧
    RecordPattern [true, true, false, false, false] 0 5 [9, 9, 9, 9]
      = ((5, 5), [2, 3, 9, 0]) ∧
    ([2, 3, 9, 0] : List Nat) ≠ [9, 9, 9, 9] := by
  refine ⟨?_, by decide, by decide⟩
  obtain ⟨hlen, hA, hFlush, hNF⟩ :=
    RecordPattern_spec row b e cs hN hbe _ rfl
  rcases Nat.lt_or_ge (changes row b e) cs.length with hch | hch
  · rcases Nat.eq_or_lt_of_le (show changes row b e + 1 ≤ cs.length by omega)
      with hfl | hlt2
    · obtain ⟨h1, h2, -, h4⟩ := hFlush hfl
      rw [h1, h2]
      constructor
      · intro h; omega
      · intro h; omega
    · obtain ⟨h1, h2, h3⟩ := hNF hlt2
      rw [h1, h2, h3]
      simp
  · obtain ⟨h1, -, -, -, h5⟩ := hA hch
    obtain ⟨-, hblt, -, -, -⟩ := hA hch
    rw [h1]
    constructor
    · intro h; omega
    · intro h; omega

/-! ### Claim C4 -/

theorem getD_append_left (l1 l2 : List Nat) (k : Nat) (h : k < l1.length) :
    (l1 ++ l2).getD k 0 = l1.getD k 0 := by
  rw [List.getD_eq_getElem?_getD, List.getElem?_append, if_pos h,
    ← List.getD_eq_getElem?_getD]

theorem getD_drop (l : List Nat) (n k : Nat) :
    (l.drop n).getD k 0 = l.getD (n + k) 0 := by
  rw [List.getD_eq_getElem?_getD, List.getElem?_drop,
    ← List.getD_eq_getElem?_getD]

/-- C4: whenever the `match` predicate rejects a full window of `N` counters,
the loop of `FindPattern` continues with the window start advanced by exactly
`counters[0] + counters[1]`, the shifted counter container (whose entries
`2..N-1` become entries `0..N-3` of the next window) and the counter index
restarted at `N - 2`, so that scanning refills the last two slots. -/
theorem findLoop_reject_slide (row : List Bool) (e : Nat)
    (mtch : Nat → Nat → List Nat → Bool) (fuel b li i c : Nat)
    (cs : List Nat) :
    ∀ j cs', j = getNextSetTo row i e (!(row.getD i false)) →
      cs' = cs.set c (j - li) →
      j < e → c + 1 = cs.length → mtch b j cs' = false →
      findLoop row e mtch (fuel + 1) b li i cs c
        = findLoop row e mtch fuel (b + cs'.getD 0 0 + cs'.getD 1 0) j j
            (cs'.drop 2 ++ cs'.drop (cs'.length - 2)) (cs.length - 2) ∧
      (∀ k, k + 2 < cs.length →
        (cs'.drop 2 ++ cs'.drop (cs'.length - 2)).getD k 0
          = cs'.getD (k + 2) 0) := by
  intro j cs' hj_def hcs' hj hc hm
  constructor
  · subst hj_def
    subst hcs'
    simp only [findLoop]
    rw [if_pos hj, if_pos hc, if_neg]
    rw [hm]
    simp
  · intro k hk
    have hlen' : cs'.length = cs.length := by rw [hcs', List.length_set]
    have hkd : k < (cs'.drop 2).length := by
      rw [List.length_drop]
      omega
    rw [getD_append_left _ _ k hkd, getD_drop, Nat.add_comm 2 k]

/-- Witness for C4 at a concrete input: four counter slots, the fourth boundary
found at position 1, and a predicate that rejects everything. -/
theorem findLoop_reject_slide_witness :
    (findLoop [true, false, true, false] 4 (fun _ _ _ => false) 4 0 0 0
        [5, 6, 7, 8] 3
      = findLoop [true, false, true, false] 4 (fun _ _ _ => false) 3
          (0 + ([5, 6, 7, 1] : List Nat).getD 0 0
            + ([5, 6, 7, 1] : List Nat).getD 1 0) 1 1
          (([5, 6, 7, 1] : List Nat).drop 2
            ++ ([5, 6, 7, 1] : List Nat).drop
                (([5, 6, 7, 1] : List Nat).length - 2))
          (([5, 6, 7, 8] : List Nat).length - 2)) ∧
    (∀ k, k + 2 < ([5, 6, 7, 8] : List Nat).length →
      (([5, 6, 7, 1] : List Nat).drop 2
        ++ ([5, 6, 7, 1] : List Nat).drop
            (([5, 6, 7, 1] : List Nat).length - 2)).getD k 0
        = ([5, 6, 7, 1] : List Nat).getD (k + 2) 0) :=
  findLoop_reject_slide [true, false, true, false] 4 (fun _ _ _ => false)
    3 0 0 0 3 [5, 6, 7, 8] 1 [5, 6, 7, 1] (by decide) (by decide) (by decide)
    (by decide) rfl

/-! ### Translation invariance of the scan (for Claim C6) -/

theorem nextSetTo_shift (rowA rowB : List Bool) (v : Bool) (d : Nat) :
    ∀ n i, (∀ p, i ≤ p → p < i + n →
        rowB.getD (p + d) false = rowA.getD p false) →
      nextSetTo rowB v (i + d) n = nextSetTo rowA v i n + d := by
  intro n
  induction n with
  | zero => intro i _; simp [nextSetTo]
  | succ n ih =>
    intro i hag
    simp only [nextSetTo]
    rw [hag i (le_refl i) (by omega)]
    by_cases hv : rowA.getD i false = v
    · rw [if_pos hv, if_pos hv]
    · rw [if_neg hv, if_neg hv,
        show i + d + 1 = i + 1 + d by omega]
      exact ih (i + 1) (fun p h1 h2 => hag p (by omega) (by omega))

theorem getNextSetTo_shift (rowA rowB : List Bool) (d i e : Nat) (v : Bool)
    (hie : i ≤ e)
    (hag : ∀ p, i ≤ p → p < e → rowB.getD (p + d) false = rowA.getD p false) :
    getNextSetTo rowB (i + d) (e + d) v = getNextSetTo rowA i e v + d := by
  unfold getNextSetTo
  rw [show e + d - (i + d) = e - i by omega]
  exact nextSetTo_shift rowA rowB v d (e - i) i
    (fun p h1 h2 => hag p h1 (by omega))

theorem getNextSetTo_self (row : List Bool) (e : Nat) (v : Bool) :
    getNextSetTo row e e v = e := by
  simp [getNextSetTo, nextSetTo]

/-- The `RecordPattern` instance of the scan loop is invariant under uniform
translation of the positions: running it on `rowB` over `[b+d, e+d)` with
`rowB` agreeing with `rowA` at shifted positions returns the shifted range and
the same counters. -/
theorem findLoop_shift (rowA rowB : List Bool) (d e : Nat)
    (hag : ∀ p, p < e → rowB.getD (p + d) false = rowA.getD p false) :
    ∀ fuel b li i c (cs : List Nat), i ≤ e →
      findLoop rowB (e + d) (fun _ _ _ => true) fuel (b + d) (li + d) (i + d)
          cs c
        = (((findLoop rowA e (fun _ _ _ => true) fuel b li i cs c).1.1 + d,
            (findLoop rowA e (fun _ _ _ => true) fuel b li i cs c).1.2 + d),
           (findLoop rowA e (fun _ _ _ => true) fuel b li i cs c).2) := by
  intro fuel
  induction fuel with
  | zero =>
    intro b li i c cs _
    simp only [findLoop]
    rw [Nat.add_sub_add_right]
  | succ fuel ih =>
    intro b li i c cs hie
    rcases Nat.eq_or_lt_of_le hie with rfl | hlt
    · simp only [findLoop]
      rw [if_neg (by rw [getNextSetTo_self]; omega),
        if_neg (by rw [getNextSetTo_self]; omega)]
      rw [Nat.add_sub_add_right]
    · have hv : rowB.getD (i + d) false = rowA.getD i false := hag i hlt
      simp only [findLoop]
      rw [hv, getNextSetTo_shift rowA rowB d i e (!(rowA.getD i false))
        (le_of_lt hlt) (fun p h1 h2 => hag p h2)]
      by_cases hj : getNextSetTo rowA i e (!(rowA.getD i false)) < e
      · rw [if_pos (by omega), if_pos hj, Nat.add_sub_add_right]
        by_cases hcase : c + 1 = cs.length
        · rw [if_pos hcase, if_pos hcase]
          simp only [if_true]
        · rw [if_neg hcase, if_neg hcase]
          exact ih b (getNextSetTo rowA i e (!(rowA.getD i false)))
            (getNextSetTo rowA i e (!(rowA.getD i false))) (c + 1)
            (cs.set c (getNextSetTo rowA i e (!(rowA.getD i false)) - li))
            (getNextSetTo_le rowA i e _ (le_of_lt hlt))
      · rw [if_neg (by omega), if_neg hj, Nat.add_sub_add_right]

/-- Translation invariance lifted to `RecordPattern`. -/
theorem RecordPattern_shift (rowA rowB : List Bool) (d e b : Nat)
    (cs : List Nat)
    (hag : ∀ p, p < e → rowB.getD (p + d) false = rowA.getD p false)
    (hbe : b ≤ e) :
    RecordPattern rowB (b + d) (e + d) cs
      = (((RecordPattern rowA b e cs).1.1 + d,
          (RecordPattern rowA b e cs).1.2 + d),
         (RecordPattern rowA b e cs).2) := by
  simp only [RecordPattern, FindPattern]
  by_cases hbe' : b = e
  · subst hbe'
    simp only [if_true]
    by_cases hback : (cs.set (cs.length - 1) 0).getD
        ((cs.set (cs.length - 1) 0).length - 1) 0 ≠ 0
    · rw [if_pos ⟨trivial, hback⟩, if_pos ⟨trivial, hback⟩]
    · rw [if_neg (fun h => hback h.2), if_neg (fun h => hback h.2)]
  · have hblt : b < e := by omega
    rw [if_neg (by omega : ¬ b + d = e + d), if_neg hbe',
      show e + d - (b + d) = e - b by omega,
      findLoop_shift rowA rowB d e hag (e - b) b b b 0
        (cs.set (cs.length - 1) 0) (le_of_lt hblt)]
    generalize findLoop rowA e (fun _ _ _ => true) (e - b) b b b
      (cs.set (cs.length - 1) 0) 0 = r0
    by_cases hcond : r0.1.2 = e ∧ r0.2.getD (r0.2.length - 1) 0 ≠ 0
    · rw [if_pos hcond, if_pos ⟨by rw [hcond.1], hcond.2⟩]
    · rw [if_neg hcond, if_neg ?_]
      rintro ⟨h1, h2⟩
      change r0.1.2 + d = e + d at h1
      change r0.2.getD (r0.2.length - 1) 0 ≠ 0 at h2
      exact hcond ⟨by omega, h2⟩

/-! ### Claim C6 -/

/-- The returned range of `RecordPattern` stays inside `[0, e]`. -/
theorem RecordPattern_range (row : List Bool) (b e : Nat) (cs : List Nat)
    (hN : 0 < cs.length) (hbe : b ≤ e) :
    (RecordPattern row b e cs).1.1 ≤ e ∧ (RecordPattern row b e cs).1.2 ≤ e := by
  rcases Nat.eq_or_lt_of_le hbe with rfl | hlt
  · rw [RecordPattern_empty row b cs hN]
    exact ⟨le_refl _, le_refl _⟩
  · obtain ⟨-, hA, hF, hNF⟩ := RecordPattern_spec row b e cs hN hlt _ rfl
    rcases Nat.lt_or_ge (changes row b e) cs.length with hch | hch
    · rcases Nat.eq_or_lt_of_le (show changes row b e + 1 ≤ cs.length by omega)
        with hfl | hlt2
      · obtain ⟨h1, h2, -, -⟩ := hF hfl
        omega
      · obtain ⟨h1, h2, -⟩ := hNF hlt2
        omega
    · obtain ⟨h1, -, h3, -, -⟩ := hA hch
      omega

/-- The reversed row segment read by the reverse iterators agrees, position by
position, with the logically-reversed Row over the mirrored range. -/
theorem reverse_agreement (row : List Bool) (b e : Nat) (hbe : b ≤ e)
    (heL : e ≤ row.length) :
    ∀ p, p < e - b →
      row.reverse.getD (p + (row.length - e)) false
        = (((row.take e).drop b).reverse).getD p false := by
  intro p hp
  have hq : p + (row.length - e) < row.length := by omega
  have hlhs : row.reverse.getD (p + (row.length - e)) false
      = row.getD (e - 1 - p) false := by
    rw [List.getD_eq_getElem?_getD, List.getElem?_reverse hq,
      show row.length - 1 - (p + (row.length - e)) = e - 1 - p by omega,
      ← List.getD_eq_getElem?_getD]
  have hlen_seg : ((row.take e).drop b).length = e - b := by
    rw [List.length_drop, List.length_take]
    omega
  have hrhs : (((row.take e).drop b).reverse).getD p false
      = row.getD (e - 1 - p) false := by
    rw [List.getD_eq_getElem?_getD,
      List.getElem?_reverse (by rw [hlen_seg]; exact hp), hlen_seg,
      List.getElem?_drop,
      show b + (e - b - 1 - p) = e - 1 - p by omega,
      List.getElem?_take, if_pos (by omega : e - 1 - p < e),
      ← List.getD_eq_getElem?_getD]
  rw [hlhs, hrhs]

/-- C6: `RecordPatternInReverse` produces exactly the mirror of `RecordPattern`
applied to the logically-reversed Row over the mirrored range
`[L - e, L - b)`: the returned counters are the reversal of the forward
counters, and the returned range is the mirrored forward range, so callers
never observe the direction of traversal. -/
theorem RecordPatternInReverse_mirror (row : List Bool) (b e : Nat)
    (cs : List Nat) (hN : 0 < cs.length) (hbe : b ≤ e) (heL : e ≤ row.length) :
    (RecordPatternInReverse row b e cs).2
      = (RecordPattern row.reverse (row.length - e) (row.length - b)
          cs).2.reverse ∧
    (RecordPatternInReverse row b e cs).1.1
      = row.length
        - (RecordPattern row.reverse (row.length - e) (row.length - b)
            cs).1.2 ∧
    (RecordPatternInReverse row b e cs).1.2
      = row.length
        - (RecordPattern row.reverse (row.length - e) (row.length - b)
            cs).1.1 := by
  have hag := reverse_agreement row b e hbe heL
  have hshift := RecordPattern_shift (((row.take e).drop b).reverse)
    row.reverse (row.length - e) (e - b) 0 cs hag (by omega)
  rw [show (0 : Nat) + (row.length - e) = row.length - e by omega,
    show e - b + (row.length - e) = row.length - b by omega] at hshift
  have hrange := RecordPattern_range (((row.take e).drop b).reverse) 0 (e - b)
    cs hN (by omega)
  rw [hshift]
  simp only [RecordPatternInReverse]
  obtain ⟨hr1, hr2⟩ := hrange
  refine ⟨trivial, ?_, ?_⟩
  · show e - (RecordPattern (((row.take e).drop b).reverse) 0 (e - b) cs).1.2
      = row.length
        - ((RecordPattern (((row.take e).drop b).reverse) 0 (e - b) cs).1.2
            + (row.length - e))
    omega
  · show e - (RecordPattern (((row.take e).drop b).reverse) 0 (e - b) cs).1.1
      = row.length
        - ((RecordPattern (((row.take e).drop b).reverse) 0 (e - b) cs).1.1
            + (row.length - e))
    omega

/-- Witness for C6 at a concrete input. -/
theorem RecordPatternInReverse_mirror_witness :
    (RecordPatternInReverse [true, false, false] 0 3 [5, 5]).2
      = (RecordPattern ([true, false, false] : List Bool).reverse
          (([true, false, false] : List Bool).length - 3)
          (([true, false, false] : List Bool).length - 0) [5, 5]).2.reverse ∧
    (RecordPatternInReverse [true, false, false] 0 3 [5, 5]).1.1
      = ([true, false, false] : List Bool).length
        - (RecordPattern ([true, false, false] : List Bool).reverse
            (([true, false, false] : List Bool).length - 3)
            (([true, false, false] : List Bool).length - 0) [5, 5]).1.2 ∧
    (RecordPatternInReverse [true, false, false] 0 3 [5, 5]).1.2
      = ([true, false, false] : List Bool).length
        - (RecordPattern ([true, false, false] : List Bool).reverse
            (([true, false, false] : List Bool).length - 3)
            (([true, false, false] : List Bool).length - 0) [5, 5]).1.1 :=
  RecordPatternInReverse_mirror [true, false, false] 0 3 [5, 5]
    (by decide) (by decide) (by decide)

/-- Witness for C9 at a concrete input. -/
theorem RecordPattern_notFound_iff_back_zero_witness :
    ((RecordPattern [true, false] 0 2 [5, 5]).1.1
        = (RecordPattern [true, false] 0 2 [5, 5]).1.2 ↔
      (RecordPattern [true, false] 0 2 [5, 5]).2.getD
        (([5, 5] : List Nat).length - 1) 0 = 0) ∧
    RecordPattern [true, true, false, false, false] 0 5 [9, 9, 9, 9]
      = ((5, 5), [2, 3, 9, 0]) ∧
    ([2, 3, 9, 0] : List Nat) ≠ [9, 9, 9, 9] :=
  RecordPattern_notFound_iff_back_zero [true, false] 0 2 [5, 5]
    (by decide) (by decide)

/-! ### The `DecodeDigit` loop -/

/-- The state of the `DecodeDigit` loop after scoring the first `n` patterns
against an abstract variance function `v`. -/
def decodeState (ru : Bool) (v : Nat → ℚ) (maxAvg : ℚ) (n : Nat) : ℚ × ℤ :=
  (List.range n).foldl (fun st i => decodeDigitStep ru st i (v i)) (maxAvg, -1)

/-- The worst variance accepted after the first `n` patterns: the minimum of
`maxAvgVariance` and the scores seen so far. -/
def bestVal (v : Nat → ℚ) (maxAvg : ℚ) : Nat → ℚ
  | 0 => maxAvg
  | n + 1 => min (bestVal v maxAvg n) (v n)

theorem decodeState_succ (ru : Bool) (v : Nat → ℚ) (maxAvg : ℚ) (n : Nat) :
    decodeState ru v maxAvg (n + 1)
      = decodeDigitStep ru (decodeState ru v maxAvg n) n (v n) := by
  unfold decodeState
  rw [List.range_succ, List.foldl_append]
  rfl

theorem DecodeDigit_eq_decodeState (pmv : List ℚ → List ℚ → ℚ → ℚ)
    (counters : List ℚ) (patterns : List (List ℚ)) (maxAvg maxIndiv : ℚ)
    (ru : Bool) :
    DecodeDigit pmv counters patterns maxAvg maxIndiv ru
      = (decodeState ru
          (fun i => pmv counters (patterns.getD i []) maxIndiv)
          maxAvg patterns.length).2 := rfl

theorem bestVal_le_maxAvg (v : Nat → ℚ) (maxAvg : ℚ) :
    ∀ n, bestVal v maxAvg n ≤ maxAvg := by
  intro n
  induction n with
  | zero => exact le_refl _
  | succ n ih => exact le_trans (min_le_left _ _) ih

theorem bestVal_le (v : Nat → ℚ) (maxAvg : ℚ) :
    ∀ n i, i < n → bestVal v maxAvg n ≤ v i := by
  intro n
  induction n with
  | zero => intro i h; omega
  | succ n ih =>
    intro i h
    rcases Nat.lt_or_ge i n with h' | h'
    · exact le_trans (min_le_left _ _) (ih i h')
    · have : i = n := by omega
      subst this
      exact min_le_right _ _

theorem bestVal_ge (v : Nat → ℚ) (maxAvg : ℚ) (x : ℚ) (hx : x ≤ maxAvg) :
    ∀ n, (∀ i, i < n → x ≤ v i) → x ≤ bestVal v maxAvg n := by
  intro n
  induction n with
  | zero => intro _; exact hx
  | succ n ih =>
    intro h
    exact le_min (ih fun i hi => h i (by omega)) (h n (by omega))

theorem bestVal_gt (v : Nat → ℚ) (maxAvg : ℚ) (x : ℚ) (hx : x < maxAvg) :
    ∀ n, (∀ i, i < n → x < v i) → x < bestVal v maxAvg n := by
  intro n
  induction n with
  | zero => intro _; exact hx
  | succ n ih =>
    intro h
    exact lt_min (ih fun i hi => h i (by omega)) (h n (by omega))

theorem bestVal_mem (v : Nat → ℚ) (maxAvg : ℚ) :
    ∀ n, bestVal v maxAvg n < maxAvg →
      ∃ i, i < n ∧ v i = bestVal v maxAvg n := by
  intro n
  induction n with
  | zero => intro h; exact absurd h (lt_irrefl _)
  | succ n ih =>
    intro h
    rcases le_or_lt (bestVal v maxAvg n) (v n) with h' | h'
    · have hB : bestVal v maxAvg (n + 1) = bestVal v maxAvg n :=
        min_eq_left h'
      obtain ⟨i, hi, hv⟩ := ih (by rw [← hB]; exact h)
      exact ⟨i, by omega, by rw [hv, hB]⟩
    · exact ⟨n, by omega, (min_eq_right (le_of_lt h')).symm⟩

theorem decodeState_fst (ru : Bool) (v : Nat → ℚ) (maxAvg : ℚ) :
    ∀ n, (decodeState ru v maxAvg n).1 = bestVal v maxAvg n := by
  intro n
  induction n with
  | zero => rfl
  | succ n ih =>
    rw [decodeState_succ]
    unfold decodeDigitStep
    by_cases h1 : v n < (decodeState ru v maxAvg n).1
    · rw [if_pos h1]
      show v n = bestVal v maxAvg (n + 1)
      rw [ih] at h1
      exact (min_eq_right (le_of_lt h1)).symm
    · rw [if_neg h1]
      rw [ih] at h1
      have hle : bestVal v maxAvg n ≤ v n := le_of_not_lt h1
      have hmin : bestVal v maxAvg (n + 1) = bestVal v maxAvg n :=
        min_eq_left hle
      split
      · show (decodeState ru v maxAvg n).1 = bestVal v maxAvg (n + 1)
        rw [ih, hmin]
      · rw [ih, hmin]

theorem bestVal_succ_eq (v : Nat → ℚ) (maxAvg : ℚ) (n : Nat) :
    bestVal v maxAvg (n + 1) = min (bestVal v maxAvg n) (v n) := rfl

/-- With `requireUnambiguousMatch`, a unique strict minimum below the threshold
is returned. -/
theorem decodeState_unique (v : Nat → ℚ) (maxAvg : ℚ) :
    ∀ n j, j < n → v j = bestVal v maxAvg n → bestVal v maxAvg n < maxAvg →
      (∀ k, k < n → k ≠ j → v k ≠ bestVal v maxAvg n) →
      (decodeState true v maxAvg n).2 = (j : ℤ) := by
  intro n
  induction n with
  | zero => intro j h; omega
  | succ n ih =>
    intro j hj hvj hlt huniq
    rw [decodeState_succ]
    unfold decodeDigitStep
    rw [decodeState_fst]
    rcases Nat.lt_or_ge j n with hjn | hjn
    · -- the unique minimum is among the first n patterns
      have hvnne : v n ≠ bestVal v maxAvg (n + 1) :=
        huniq n (by omega) (by omega)
      have hvnge : bestVal v maxAvg (n + 1) ≤ v n :=
        bestVal_succ_eq v maxAvg n ▸ min_le_right _ _
      have hvn : bestVal v maxAvg (n + 1) < v n :=
        lt_of_le_of_ne hvnge (fun h => hvnne h.symm)
      have hBn : bestVal v maxAvg (n + 1) = bestVal v maxAvg n := by
        rcases min_cases (bestVal v maxAvg n) (v n) with ⟨h, -⟩ | ⟨h, -⟩
        · exact (bestVal_succ_eq v maxAvg n).trans h
        · exfalso
          have := (bestVal_succ_eq v maxAvg n).trans h
          rw [this] at hvn
          exact lt_irrefl _ hvn
      have h1 : ¬ (v n < bestVal v maxAvg n) := by
        rw [← hBn]
        exact not_lt.mpr (le_of_lt hvn)
      have h2 : ¬ (true = true ∧ v n = bestVal v maxAvg n) := by
        rintro ⟨-, h⟩
        exact hvnne (h.trans hBn.symm)
      rw [if_neg h1, if_neg h2]
      exact ih j hjn (hvj.trans hBn) (hBn ▸ hlt)
        (fun k hk hkj => hBn ▸ huniq k (by omega) hkj)
    · have hj_eq : j = n := by omega
      subst hj_eq
      have hle : v j ≤ bestVal v maxAvg j :=
        hvj.le.trans (bestVal_succ_eq v maxAvg j ▸ min_le_left _ _)
      rcases lt_or_eq_of_le hle with hlt' | heq
      · rw [if_pos hlt']
      · exfalso
        have hBeq : bestVal v maxAvg (j + 1) = bestVal v maxAvg j := by
          rw [bestVal_succ_eq, min_eq_left (heq ▸ le_refl _)]
        have hBlt : bestVal v maxAvg j < maxAvg := hBeq ▸ hlt
        obtain ⟨k, hk, hvk⟩ := bestVal_mem v maxAvg j hBlt
        exact huniq k (by omega) (by omega) (hvk.trans hBeq.symm)

/-- With `requireUnambiguousMatch`, an exact tie on the minimal score below the
threshold invalidates the match. -/
theorem decodeState_amb (v : Nat → ℚ) (maxAvg : ℚ) :
    ∀ n i j, i < j → j < n → v i = v j → v i = bestVal v maxAvg n →
      v i < maxAvg → (decodeState true v maxAvg n).2 = -1 := by
  intro n
  induction n with
  | zero => intro i j h1 h2; omega
  | succ n ih =>
    intro i j hij hjn hvv hvB hlt
    rw [decodeState_succ]
    unfold decodeDigitStep
    rw [decodeState_fst]
    have hiB : bestVal v maxAvg n ≤ v i := bestVal_le v maxAvg n i (by omega)
    have hBn : v i = bestVal v maxAvg n :=
      le_antisymm
        (hvB.le.trans (bestVal_succ_eq v maxAvg n ▸ min_le_left _ _)) hiB
    rcases Nat.lt_or_ge j n with hjn' | hjn'
    · have hres := ih i j hij hjn' hvv hBn hlt
      have hvnge : bestVal v maxAvg n ≤ v n := by
        have h := hvB.symm.trans hBn
        rw [bestVal_succ_eq] at h
        exact min_eq_left_iff.mp h
      rw [if_neg (not_lt.mpr hvnge)]
      by_cases htie : v n = bestVal v maxAvg n
      · rw [if_pos ⟨rfl, htie⟩]
      · rw [if_neg (fun h => htie h.2)]
        exact hres
    · have hj_eq : j = n := by omega
      subst hj_eq
      have hvn_eq : v j = bestVal v maxAvg j := hvv.symm.trans hBn
      rw [if_neg (not_lt.mpr (le_of_eq hvn_eq.symm)), if_pos ⟨rfl, hvn_eq⟩]

/-- If no pattern scores below the threshold, no match is reported. -/
theorem decodeState_none (ru : Bool) (v : Nat → ℚ) (maxAvg : ℚ) :
    ∀ n, (∀ k, k < n → maxAvg ≤ v k) → (decodeState ru v maxAvg n).2 = -1 := by
  intro n
  induction n with
  | zero => intro _; rfl
  | succ n ih =>
    intro h
    rw [decodeState_succ]
    unfold decodeDigitStep
    rw [decodeState_fst]
    have h1 : ¬ (v n < bestVal v maxAvg n) :=
      not_lt.mpr (le_trans (bestVal_le_maxAvg v maxAvg n) (h n (by omega)))
    rw [if_neg h1]
    have hres := ih (fun k hk => h k (by omega))
    by_cases htie : ru = true ∧ v n = bestVal v maxAvg n
    · rw [if_pos htie]
    · rw [if_neg htie]
      exact hres

/-- Without `requireUnambiguousMatch`, the first index attaining the minimum
below the threshold wins (ties never invalidate). -/
theorem decodeState_least (v : Nat → ℚ) (maxAvg : ℚ) :
    ∀ n j, j < n → v j < maxAvg → (∀ k, k < n → v j ≤ v k) →
      (∀ k, k < j → v j < v k) → (decodeState false v maxAvg n).2 = (j : ℤ) := by
  intro n
  induction n with
  | zero => intro j h; omega
  | succ n ih =>
    intro j hj hlt hmin hfirst
    rw [decodeState_succ]
    unfold decodeDigitStep
    rw [decodeState_fst]
    rcases Nat.lt_or_ge j n with hjn | hjn
    · have hres := ih j hjn hlt (fun k hk => hmin k (by omega)) hfirst
      have h1 : ¬ (v n < bestVal v maxAvg n) :=
        not_lt.mpr (le_trans (bestVal_le v maxAvg n j hjn) (hmin n (by omega)))
      rw [if_neg h1, if_neg (fun h => Bool.false_ne_true h.1)]
      exact hres
    · have hj_eq : j = n := by omega
      subst hj_eq
      have h1 : v j < bestVal v maxAvg j := bestVal_gt v maxAvg (v j) hlt j hfirst
      rw [if_pos h1]

/-- Without `requireUnambiguousMatch`, some match is reported as soon as any
pattern scores below the threshold. -/
theorem decodeState_nonneg (v : Nat → ℚ) (maxAvg : ℚ) :
    ∀ n, (∃ k, k < n ∧ v k < maxAvg) →
      0 ≤ (decodeState false v maxAvg n).2 := by
  intro n
  induction n with
  | zero => rintro ⟨k, hk, -⟩; omega
  | succ n ih =>
    rintro ⟨k, hk, hkv⟩
    rw [decodeState_succ]
    unfold decodeDigitStep
    rw [decodeState_fst]
    by_cases h1 : v n < bestVal v maxAvg n
    · rw [if_pos h1]
      exact Int.natCast_nonneg n
    · rw [if_neg h1, if_neg (fun h => Bool.false_ne_true h.1)]
      apply ih
      rcases Nat.lt_or_ge k n with hkn | hkn
      · exact ⟨k, hkn, hkv⟩
      · have hnv : v n < maxAvg := by
          rw [show n = k by omega]
          exact hkv
        have hBlt : bestVal v maxAvg n < maxAvg :=
          lt_of_le_of_lt (le_of_not_lt h1) hnv
        obtain ⟨i, hi, hvi⟩ := bestVal_mem v maxAvg n hBlt
        exact ⟨i, hi, by rw [hvi]; exact hBlt⟩

/-! ### Claim C1 -/

/-- C1: For every counters sequence, patterns list and pair of thresholds
(stated for an arbitrary variance function `pmv`, hence in particular for the
spec-modelled `PatternMatchVariance`), `DecodeDigit` with
`requireUnambiguousMatch = true` (a) returns no-match (`-1`) whenever two or
more patterns attain the identical minimal variance strictly below
`maxAvgVariance`; (b) returns the index of the pattern with the unique minimal
score when that score is strictly below `maxAvgVariance`; and (c) a strictly
better score always replaces the current best match and clears any previously
recorded ambiguity (also when the recorded best match is `-1`). -/
theorem DecodeDigit_unambiguous_spec (pmv : List ℚ → List ℚ → ℚ → ℚ)
    (counters : List ℚ) (patterns : List (List ℚ)) (maxAvg maxIndiv : ℚ) :
    (∀ i j, i < j → j < patterns.length →
      pmv counters (patterns.getD i []) maxIndiv
        = pmv counters (patterns.getD j []) maxIndiv →
      pmv counters (patterns.getD i []) maxIndiv < maxAvg →
      (∀ k, k < patterns.length →
        pmv counters (patterns.getD i []) maxIndiv
          ≤ pmv counters (patterns.getD k []) maxIndiv) →
      DecodeDigit pmv counters patterns maxAvg maxIndiv true = -1) ∧
    (∀ i, i < patterns.length →
      pmv counters (patterns.getD i []) maxIndiv < maxAvg →
      (∀ k, k < patterns.length → k ≠ i →
        pmv counters (patterns.getD i []) maxIndiv
          < pmv counters (patterns.getD k []) maxIndiv) →
      DecodeDigit pmv counters patterns maxAvg maxIndiv true = (i : ℤ)) ∧
    (∀ (bv : ℚ) (bm : ℤ) (i : Nat) (variance : ℚ), variance < bv →
      decodeDigitStep true (bv, bm) i variance = (variance, (i : ℤ))) := by
  refine ⟨?_, ?_, ?_⟩
  · intro i j hij hjn heq hlt hmin
    rw [DecodeDigit_eq_decodeState]
    have hvB : pmv counters (patterns.getD i []) maxIndiv
        = bestVal (fun k => pmv counters (patterns.getD k []) maxIndiv)
            maxAvg patterns.length :=
      le_antisymm
        (bestVal_ge _ maxAvg _ (le_of_lt hlt) _ (fun k hk => hmin k hk))
        (bestVal_le _ maxAvg _ i (by omega))
    exact decodeState_amb _ maxAvg patterns.length i j hij hjn heq hvB hlt
  · intro i hin hlt huniq
    rw [DecodeDigit_eq_decodeState]
    have hvB : pmv counters (patterns.getD i []) maxIndiv
        = bestVal (fun k => pmv counters (patterns.getD k []) maxIndiv)
            maxAvg patterns.length :=
      le_antisymm
        (bestVal_ge _ maxAvg _ (le_of_lt hlt) _ (fun k hk => by
          rcases eq_or_ne k i with rfl | hne
          · exact le_refl _
          · exact le_of_lt (huniq k hk hne)))
        (bestVal_le _ maxAvg _ i hin)
    refine decodeState_unique _ maxAvg patterns.length i hin hvB
      (by rw [← hvB]; exact hlt) (fun k hk hki => ?_)
    rw [← hvB]
    exact ne_of_gt (huniq k hk hki)
  · intro bv bm i variance h
    unfold decodeDigitStep
    rw [if_pos h]

/-- Witness for C1 at concrete inputs: a tied minimum yields `-1`, a unique
minimum yields its index, and a strictly better score replaces a recorded
ambiguity. -/
theorem DecodeDigit_unambiguous_spec_witness :
    DecodeDigit (fun _ p _ => p.sum) [] [[1], [2], [1]] 5 1 true = -1 ∧
    DecodeDigit (fun _ p _ => p.sum) [] [[2], [1], [3]] 5 1 true = 1 ∧
    decodeDigitStep true (5, -1) 0 2 = (2, 0) := by
  refine ⟨?_, ?_, ?_⟩
  · exact (DecodeDigit_unambiguous_spec (fun _ p _ => p.sum) []
      [[1], [2], [1]] 5 1).1 0 2 (by norm_num) (by norm_num) (by norm_num)
      (by norm_num) (fun k hk => by
        have hk3 : k < 3 := by simpa using hk
        interval_cases k <;> norm_num)
  · exact (DecodeDigit_unambiguous_spec (fun _ p _ => p.sum) []
      [[2], [1], [3]] 5 1).2.1 1 (by norm_num) (by norm_num)
      (fun k hk hne => by
        have hk3 : k < 3 := by simpa using hk
        interval_cases k <;> norm_num at hne ⊢)
  · exact (DecodeDigit_unambiguous_spec (fun _ p _ => p.sum) [] [] 5 1).2.2
      5 (-1) 0 2 (by norm_num)

/-! ### Claim C10 -/

/-- C10: For every counters sequence and patterns list (stated for an arbitrary
variance function `pmv`), `DecodeDigit` with `requireUnambiguousMatch = false`
returns the smallest index among the patterns attaining the minimal variance
strictly below `maxAvgVariance` (earlier candidates win exact ties), and
returns `-1` only when no pattern scores strictly below `maxAvgVariance`. -/
theorem DecodeDigit_first_min_spec (pmv : List ℚ → List ℚ → ℚ → ℚ)
    (counters : List ℚ) (patterns : List (List ℚ)) (maxAvg maxIndiv : ℚ) :
    (∀ i, i < patterns.length →
      pmv counters (patterns.getD i []) maxIndiv < maxAvg →
      (∀ k, k < patterns.length →
        pmv counters (patterns.getD i []) maxIndiv
          ≤ pmv counters (patterns.getD k []) maxIndiv) →
      (∀ k, k < i →
        pmv counters (patterns.getD i []) maxIndiv
          < pmv counters (patterns.getD k []) maxIndiv) →
      DecodeDigit pmv counters patterns maxAvg maxIndiv false = (i : ℤ)) ∧
    (DecodeDigit pmv counters patterns maxAvg maxIndiv false = -1 →
      ∀ k, k < patterns.length →
        ¬ (pmv counters (patterns.getD k []) maxIndiv < maxAvg)) := by
  constructor
  · intro i hin hlt hmin hfirst
    rw [DecodeDigit_eq_decodeState]
    exact decodeState_least _ maxAvg patterns.length i hin hlt hmin hfirst
  · intro hres k hk hklt
    have h := decodeState_nonneg
      (fun k => pmv counters (patterns.getD k []) maxIndiv) maxAvg
      patterns.length ⟨k, hk, hklt⟩
    rw [← DecodeDigit_eq_decodeState, hres] at h
    omega

/-- Witness for C10 at concrete inputs: the earlier of two tied minima wins,
and a `-1` result certifies that no pattern scored below the threshold. -/
theorem DecodeDigit_first_min_spec_witness :
    DecodeDigit (fun _ p _ => p.sum) [] [[1], [2], [1]] 5 1 false = 0 ∧
    (∀ k, k < ([[7], [9]] : List (List ℚ)).length →
      ¬ ((fun (_ : List ℚ) (p : List ℚ) (_ : ℚ) => p.sum) []
          (([[7], [9]] : List (List ℚ)).getD k []) 1 < 5)) := by
  constructor
  · exact (DecodeDigit_first_min_spec (fun _ p _ => p.sum) []
      [[1], [2], [1]] 5 1).1 0 (by norm_num) (by norm_num)
      (fun k hk => by
        have hk3 : k < 3 := by simpa using hk
        interval_cases k <;> norm_num)
      (fun k hk => absurd hk (by omega))
  · exact (DecodeDigit_first_min_spec (fun _ p _ => p.sum) [] [[7], [9]]
      5 1).2 (by norm_num [DecodeDigit, decodeDigitStep, List.range_succ])

/-! ### Claim C7 -/

/-- C7 counterexample: the window `[2,5,9,5]` has bar widths `{2,9}` whose
wide/narrow ratio `9/2` exceeds `4:1` (`9 > 4·2`), yet `NarrowWideThreshold`
returns a valid threshold — the code only rejects beyond the `+1` rounding
tolerance (`M > 4(m+1)`), so the claim as stated is false. -/
theorem NarrowWideThreshold_ratio_counterexample :
    4 * (minMaxBS [2, 5, 9, 5]).1.bar < (minMaxBS [2, 5, 9, 5]).2.bar ∧
    (NarrowWideThreshold [2, 5, 9, 5]).isValid = true := by decide

/-- C7 (amended): `NarrowWideThreshold` returns the invalid threshold for every
window whose maximum width exceeds `4 * (minimum + 1)` for bars or for spaces
(the 4:1 rule with the `+1` rounding tolerance), and returns a valid threshold
for the clean 1:3 narrow/wide window with bars `{2,6}` and spaces `{2,6}`
(view `[2,2,6,6]`). -/
theorem NarrowWideThreshold_reject_and_accept :
    (∀ view : List Nat,
      4 * ((minMaxBS view).1.bar + 1) < (minMaxBS view).2.bar ∨
      4 * ((minMaxBS view).1.space + 1) < (minMaxBS view).2.space →
      NarrowWideThreshold view = ⟨0, 0⟩) ∧
    (NarrowWideThreshold [2, 2, 6, 6]).isValid = true ∧
    NarrowWideThreshold [2, 2, 6, 6] = ⟨4, 4⟩ := by
  refine ⟨?_, by decide, by decide⟩
  intro view h
  have hidx0 : ∀ bs : BarAndSpace, bs.idx 0 = bs.bar := fun _ => rfl
  have hidx1 : ∀ bs : BarAndSpace, bs.idx 1 = bs.space := fun _ => rfl
  have hidx2 : ∀ bs : BarAndSpace, bs.idx 2 = bs.bar := fun _ => rfl
  simp only [NarrowWideThreshold, hidx0, hidx1, hidx2]
  rcases h with hbar | hspace
  · rw [if_pos (Or.inl hbar)]
  · by_cases h0 : 4 * ((minMaxBS view).1.bar + 1) < (minMaxBS view).2.bar ∨
        3 * (minMaxBS view).2.space < (minMaxBS view).2.bar ∨
        2 * ((minMaxBS view).1.space + 1) < (minMaxBS view).1.bar
    · rw [if_pos h0]
    · rw [if_neg h0, if_pos (Or.inl hspace)]

/-- Witness for (amended) C7 at a concrete input: a `1:49.5` bar ratio is
rejected even with the `+1` tolerance. -/
theorem NarrowWideThreshold_reject_and_accept_witness :
    NarrowWideThreshold [2, 5, 99, 5] = ⟨0, 0⟩ ∧
    (NarrowWideThreshold [2, 2, 6, 6]).isValid = true :=
  ⟨NarrowWideThreshold_reject_and_accept.1 [2, 5, 99, 5]
    (Or.inl (by decide)),
   NarrowWideThreshold_reject_and_accept.2.1⟩

/-! ### Claim C8 -/

/-- C8 counterexample: `ToNarrowWidePattern [2,6,2,6]` is not `0b0101`.  With
mod-2 (bar/space) indexing, the bars of `[2,6,2,6]` are `{2,2}` and the spaces
`{6,6}` — each type is uniform, so no element classifies as wide. -/
theorem ToNarrowWidePattern_2626_counterexample :
    ToNarrowWidePattern [2, 6, 2, 6] ≠ 5 := by decide

/-- C8 (amended): `ToNarrowWidePattern` on `[2,6,2,6]` (threshold computed from
the same data) yields the bit pattern `0b0000`: the thresholds are `bar = 3`
(`max((2+2)/2, 2·3/2)`) and `space = 9` (`max((6+6)/2, 6·3/2)`), and every
element of the view is classified narrow. -/
theorem ToNarrowWidePattern_2626 :
    ToNarrowWidePattern [2, 6, 2, 6] = 0 ∧
    NarrowWideThreshold [2, 6, 2, 6] = ⟨3, 9⟩ := by decide

/-! ### Rational list lemmas for the fit-scoring proofs -/

theorem qsum_eq_sum_getD (l : List ℚ) :
    l.sum = ∑ i in Finset.range l.length, l.getD i 0 := by
  induction l with
  | nil => simp
  | cons a l ih =>
    rw [List.sum_cons, ih, List.length_cons, Finset.sum_range_succ']
    simp
    ring

theorem qsum_set (l : List ℚ) :
    ∀ (j : Nat) (x : ℚ), j < l.length →
      (l.set j x).sum = l.sum - l.getD j 0 + x := by
  induction l with
  | nil => intro j x h; simp at h
  | cons a l ih =>
    intro j x h
    cases j with
    | zero => simp [List.sum_cons]; ring
    | succ j =>
      simp only [List.set, List.sum_cons, List.getD_cons_succ]
      rw [ih j x (by simpa using h)]
      ring

theorem qgetD_set_self (l : List ℚ) :
    ∀ (j : Nat) (x : ℚ), j < l.length → (l.set j x).getD j 0 = x := by
  induction l with
  | nil => intro j x h; simp at h
  | cons a l ih =>
    intro j x h
    cases j with
    | zero => rfl
    | succ j => exact ih j x (by simpa using h)

theorem qgetD_set_ne (l : List ℚ) :
    ∀ (j k : Nat) (x : ℚ), j ≠ k → (l.set j x).getD k 0 = l.getD k 0 := by
  induction l with
  | nil => intro j k x h; simp
  | cons a l ih =>
    intro j k x h
    cases j with
    | zero =>
      cases k with
      | zero => exact absurd rfl h
      | succ k => rfl
    | succ j =>
      cases k with
      | zero => rfl
      | succ k => exact ih j k x (by omega)

theorem qsum_map_mul (k : ℚ) (p : List ℚ) :
    (p.map fun x => k * x).sum = k * p.sum := by
  induction p with
  | nil => simp
  | cons a p ih => simp [ih, mul_add]

theorem qgetD_map_mul (k : ℚ) (p : List ℚ) :
    ∀ i, (p.map fun x => k * x).getD i 0 = k * p.getD i 0 := by
  induction p with
  | nil => intro i; simp
  | cons a p ih =>
    intro i
    cases i with
    | zero => rfl
    | succ i => exact ih i

theorem qnonneg_sum_zero_getD (p : List ℚ) (hp : ∀ x ∈ p, 0 ≤ x)
    (hsum : p.sum = 0) : ∀ i, p.getD i 0 = 0 := by
  induction p with
  | nil => intro i; simp
  | cons a p ih =>
    have ha : 0 ≤ a := hp a (by simp)
    have hrest : 0 ≤ p.sum := List.sum_nonneg (fun x hx => hp x (by simp [hx]))
    have hsum' : a + p.sum = 0 := by simpa using hsum
    have ha0 : a = 0 := by linarith
    have hps : p.sum = 0 := by linarith
    intro i
    cases i with
    | zero => exact ha0
    | succ i => exact ih (fun x hx => hp x (by simp [hx])) hps i

/-- C5 part (a): an exact positive integer multiple of the pattern scores `0`
(for a nonnegative individual-variance bound and nonnegative pattern). -/
theorem PatternMatchVariance_exact_multiple (p : List ℚ) (k : Nat) (v : ℚ)
    (hk : 1 ≤ k) (hv : 0 ≤ v) (hp : ∀ x ∈ p, 0 ≤ x) :
    PatternMatchVariance (p.map fun x => (k : ℚ) * x) p v = 0 := by
  have hdev : ∀ i, deviation (p.map fun x => (k : ℚ) * x) p i = 0 := by
    intro i
    unfold deviation expectedWidth
    rw [qsum_map_mul, qgetD_map_mul]
    by_cases hP : p.sum = 0
    · have hz := qnonneg_sum_zero_getD p hp hP
      rw [hz i, hP]
      simp
    · rw [mul_div_assoc, div_self hP, mul_one, mul_comm]
      simp
  unfold PatternMatchVariance
  rw [if_neg]
  · unfold rawVariance totalDeviation
    rw [Finset.sum_eq_zero (fun i _ => hdev i), zero_div]
  · rintro ⟨i, -, hi⟩
    rw [hdev i, zero_div] at hi
    exact absurd hi (not_lt.mpr hv)

/-- Core inequality for C5, upper side: if the signed deviations `s` (near
point) and `s2` (far point) of a window of `n` runs differ only through the
move of run `j` away from (and above) its expected width — so the total width
grows from `T` to `U = T + δ` and every other signed deviation drops by
`pf i * δ / P` — then the accumulated score does not decrease.  The
hypothesis `hcap` encodes the nonnegativity of the other run widths. -/
theorem deviation_sum_mono_above (n j : Nat) (s s2 pf : Nat → ℚ)
    (P T U δ : ℚ) (hj : j ∈ Finset.range n)
    (hPpos : 0 < P) (hTpos : 0 < T) (hδ0 : 0 ≤ δ) (hUT : U = T + δ)
    (hp0 : ∀ i ∈ Finset.range n, 0 ≤ pf i)
    (hpfP : ∑ i in Finset.range n, pf i = P)
    (hsum : ∑ i in Finset.range n, s i = 0)
    (hsum2 : ∑ i in Finset.range n, s2 i = 0)
    (hs2_ne : ∀ i ∈ Finset.range n, i ≠ j → s2 i = s i - pf i * (δ / P))
    (hs2_j : s2 j = s j + δ - pf j * (δ / P))
    (hsj0 : 0 ≤ s j)
    (hcap : ∀ i ∈ Finset.range n, i ≠ j → -(s i) ≤ pf i * (T / P)) :
    (∑ i in Finset.range n, |s i|) / T
      ≤ (∑ i in Finset.range n, |s2 i|) / U := by
  have hUpos : 0 < U := by rw [hUT]; linarith
  have habs : ∀ x : ℚ, |x| = 2 * max x 0 - x := by
    intro x
    rcases le_or_lt 0 x with h | h
    · rw [abs_of_nonneg h, max_eq_left h]; ring
    · rw [abs_of_neg h, max_eq_right (le_of_lt h)]; ring
  have hD1 : ∑ i in Finset.range n, |s i|
      = 2 * ∑ i in Finset.range n, max (s i) 0 := by
    rw [Finset.sum_congr rfl (fun i _ => habs (s i)), Finset.sum_sub_distrib,
      hsum, sub_zero, Finset.mul_sum]
  have hD2 : ∑ i in Finset.range n, |s2 i|
      = 2 * ∑ i in Finset.range n, max (s2 i) 0 := by
    rw [Finset.sum_congr rfl (fun i _ => habs (s2 i)), Finset.sum_sub_distrib,
      hsum2, sub_zero, Finset.mul_sum]
  set F' := ((Finset.range n).filter fun i => 0 < s i).erase j with hFerase
  have hFsub : F' ⊆ Finset.range n :=
    le_trans (Finset.erase_subset _ _) (Finset.filter_subset _ _)
  have hjF' : j ∉ F' := Finset.not_mem_erase _ _
  have hiFne : ∀ i ∈ F', i ≠ j := fun i hi => Finset.ne_of_mem_erase hi
  have hinsert_sub : insert j F' ⊆ Finset.range n :=
    Finset.insert_subset hj hFsub
  have hposW : ∑ i in Finset.range n, max (s i) 0 ≤ s j + ∑ i in F', s i := by
    have hposF : ∑ i in Finset.range n, max (s i) 0
        = ∑ i in (Finset.range n).filter (fun i => 0 < s i), s i := by
      rw [← Finset.sum_filter_add_sum_filter_not (Finset.range n)
        (fun i => 0 < s i) (fun i => max (s i) 0),
        Finset.sum_congr rfl (fun i hi => max_eq_left
          (le_of_lt (Finset.mem_filter.mp hi).2)),
        Finset.sum_eq_zero (fun i hi => max_eq_right
          (le_of_not_lt (Finset.mem_filter.mp hi).2)), add_zero]
    rw [hposF]
    by_cases hjF : j ∈ (Finset.range n).filter fun i => 0 < s i
    · rw [← Finset.add_sum_erase _ s hjF]
    · rw [hFerase, Finset.erase_eq_of_not_mem hjF]
      linarith [hsj0]
  have hpos2W : s2 j + ∑ i in F', s2 i
      ≤ ∑ i in Finset.range n, max (s2 i) 0 := by
    have h1 : s2 j + ∑ i in F', s2 i
        ≤ max (s2 j) 0 + ∑ i in F', max (s2 i) 0 :=
      add_le_add (le_max_left _ _) (Finset.sum_le_sum fun i _ => le_max_left _ _)
    have h2 : max (s2 j) 0 + ∑ i in F', max (s2 i) 0
        = ∑ i in insert j F', max (s2 i) 0 :=
      (Finset.sum_insert (f := fun i => max (s2 i) 0) hjF').symm
    have h3 : ∑ i in insert j F', max (s2 i) 0
        ≤ ∑ i in Finset.range n, max (s2 i) 0 :=
      Finset.sum_le_sum_of_subset_of_nonneg hinsert_sub
        (fun i _ _ => le_max_right _ _)
    linarith
  have hsplit : ∑ i in Finset.range n \ insert j F', pf i
      + ∑ i in insert j F', pf i = P := by
    rw [Finset.sum_sdiff hinsert_sub, hpfP]
  have hsplitS : ∑ i in Finset.range n \ insert j F', s i
      + ∑ i in insert j F', s i = 0 := by
    rw [Finset.sum_sdiff hinsert_sub, hsum]
  have hQG0 : 0 ≤ ∑ i in Finset.range n \ insert j F', pf i :=
    Finset.sum_nonneg (fun i hi => hp0 i (Finset.mem_sdiff.mp hi).1)
  have hWcap : s j + ∑ i in F', s i
      ≤ (∑ i in Finset.range n \ insert j F', pf i) * (T / P) := by
    have h1 : s j + ∑ i in F', s i = ∑ i in insert j F', s i :=
      (Finset.sum_insert hjF').symm
    have h3 : - ∑ i in Finset.range n \ insert j F', s i
        = ∑ i in Finset.range n \ insert j F', -(s i) :=
      Finset.sum_neg_distrib.symm
    have h4 : ∑ i in Finset.range n \ insert j F', -(s i)
        ≤ ∑ i in Finset.range n \ insert j F', pf i * (T / P) := by
      apply Finset.sum_le_sum
      intro i hi
      obtain ⟨hiR, hiN⟩ := Finset.mem_sdiff.mp hi
      exact hcap i hiR (fun h => hiN (h ▸ Finset.mem_insert_self j F'))
    have h5 : ∑ i in Finset.range n \ insert j F', pf i * (T / P)
        = (∑ i in Finset.range n \ insert j F', pf i) * (T / P) :=
      (Finset.sum_mul ..).symm
    linarith
  have hstep : s2 j + ∑ i in F', s2 i
      = (s j + ∑ i in F', s i)
        + δ * (∑ i in Finset.range n \ insert j F', pf i) / P := by
    have hrw : ∑ i in F', s2 i
        = ∑ i in F', s i - (∑ i in F', pf i) * (δ / P) := by
      rw [Finset.sum_congr rfl
          (fun i hi => hs2_ne i (hFsub hi) (hiFne i hi)),
        Finset.sum_sub_distrib, Finset.sum_mul]
    have hins : pf j + ∑ i in F', pf i
        = P - ∑ i in Finset.range n \ insert j F', pf i := by
      have h := hsplit
      rw [Finset.sum_insert hjF'] at h
      linarith
    have key : pf j * (δ / P) + (∑ i in F', pf i) * (δ / P)
        = δ - δ * (∑ i in Finset.range n \ insert j F', pf i) / P := by
      rw [← add_mul, hins]
      field_simp
      ring
    rw [hs2_j, hrw]
    linarith [key]
  rw [div_le_div_iff hTpos hUpos, hD1, hD2]
  have h1 : (∑ i in Finset.range n, max (s i) 0) * U
      ≤ (s j + ∑ i in F', s i) * U :=
    mul_le_mul_of_nonneg_right hposW hUpos.le
  have h2 : (s j + ∑ i in F', s i) * U
      = (s j + ∑ i in F', s i) * T + (s j + ∑ i in F', s i) * δ := by
    rw [hUT]; ring
  have h3 : (s j + ∑ i in F', s i) * δ
      ≤ ((∑ i in Finset.range n \ insert j F', pf i) * (T / P)) * δ :=
    mul_le_mul_of_nonneg_right hWcap hδ0
  have h4 : ((∑ i in Finset.range n \ insert j F', pf i) * (T / P)) * δ
      = ((δ * ∑ i in Finset.range n \ insert j F', pf i) / P) * T := by
    ring
  have h5 : (s2 j + ∑ i in F', s2 i) * T
      = (s j + ∑ i in F', s i) * T
        + ((δ * ∑ i in Finset.range n \ insert j F', pf i) / P) * T := by
    rw [hstep]; ring
  have h6 : (s2 j + ∑ i in F', s2 i) * T
      ≤ (∑ i in Finset.range n, max (s2 i) 0) * T :=
    mul_le_mul_of_nonneg_right hpos2W hTpos.le
  linarith [h1, h2, h3, h4, h5, h6]

/-- Core inequality for C5, lower side: moving run `j` further below its
expected width shrinks the total width from `T` to `U = T - δ` and raises
every other signed deviation, so the accumulated score does not decrease. -/
theorem deviation_sum_mono_below (n j : Nat) (s s2 pf : Nat → ℚ)
    (P T U δ : ℚ) (hj : j ∈ Finset.range n)
    (hPpos : 0 < P) (hUpos : 0 < U) (hδ0 : 0 ≤ δ) (hUT : U = T - δ)
    (hp0 : ∀ i ∈ Finset.range n, 0 ≤ pf i)
    (hpfP : ∑ i in Finset.range n, pf i = P)
    (hsum : ∑ i in Finset.range n, s i = 0)
    (hsum2 : ∑ i in Finset.range n, s2 i = 0)
    (hs2_ne : ∀ i ∈ Finset.range n, i ≠ j → s2 i = s i + pf i * (δ / P))
    (hs2_j : s2 j = s j - δ + pf j * (δ / P))
    (hsj0 : s j ≤ 0) :
    (∑ i in Finset.range n, |s i|) / T
      ≤ (∑ i in Finset.range n, |s2 i|) / U := by
  have hTpos : 0 < T := by rw [hUT] at hUpos; linarith
  have habs : ∀ x : ℚ, |x| = 2 * max x 0 - x := by
    intro x
    rcases le_or_lt 0 x with h | h
    · rw [abs_of_nonneg h, max_eq_left h]; ring
    · rw [abs_of_neg h, max_eq_right (le_of_lt h)]; ring
  have hD1 : ∑ i in Finset.range n, |s i|
      = 2 * ∑ i in Finset.range n, max (s i) 0 := by
    rw [Finset.sum_congr rfl (fun i _ => habs (s i)), Finset.sum_sub_distrib,
      hsum, sub_zero, Finset.mul_sum]
  have hD2 : ∑ i in Finset.range n, |s2 i|
      = 2 * ∑ i in Finset.range n, max (s2 i) 0 := by
    rw [Finset.sum_congr rfl (fun i _ => habs (s2 i)), Finset.sum_sub_distrib,
      hsum2, sub_zero, Finset.mul_sum]
  have hpjP : pf j ≤ P := by
    rw [← hpfP]
    exact Finset.single_le_sum hp0 hj
  have hs2j0 : s2 j ≤ 0 := by
    have h1 : pf j * (δ / P) ≤ δ := by
      have h2 : pf j * (δ / P) ≤ P * (δ / P) :=
        mul_le_mul_of_nonneg_right hpjP (div_nonneg hδ0 hPpos.le)
      have h3 : P * (δ / P) = δ := by field_simp
      linarith
    rw [hs2_j]
    linarith
  have hpos : ∑ i in Finset.range n, max (s i) 0
      ≤ ∑ i in Finset.range n, max (s2 i) 0 := by
    apply Finset.sum_le_sum
    intro i hi
    rcases eq_or_ne i j with rfl | hij
    · rw [max_eq_right hsj0, max_eq_right hs2j0]
    · rw [hs2_ne i hi hij]
      apply max_le_max _ (le_refl 0)
      have : 0 ≤ pf i * (δ / P) :=
        mul_nonneg (hp0 i hi) (div_nonneg hδ0 hPpos.le)
      linarith
  have hpos2nn : 0 ≤ ∑ i in Finset.range n, max (s2 i) 0 :=
    Finset.sum_nonneg (fun i _ => le_max_right _ _)
  rw [div_le_div_iff hTpos hUpos, hD1, hD2]
  nlinarith [mul_nonneg hpos2nn hδ0,
    mul_le_mul_of_nonneg_right hpos hUpos.le]

/-- C5, upper side, in terms of the fit-scoring definitions: moving counter `j`
upward while it is at or above its expected width cannot decrease the
accumulated score `totalDeviation / total`. -/
theorem rawVariance_mono_above (c p : List ℚ) (j : Nat) (t u : ℚ)
    (hlen : p.length = c.length) (hj : j < c.length)
    (hc : ∀ i, i < c.length → i ≠ j → 0 ≤ c.getD i 0)
    (hp : ∀ i, i < p.length → 0 ≤ p.getD i 0)
    (hP : 0 < p.sum)
    (hT : 0 < (c.set j t).sum)
    (htu : t ≤ u)
    (hside : expectedWidth (c.set j t) p j ≤ t) :
    rawVariance (c.set j t) p ≤ rawVariance (c.set j u) p := by
  have hn1 : (c.set j t).length = c.length := List.length_set ..
  have hn2 : (c.set j u).length = c.length := List.length_set ..
  have hPne : p.sum ≠ 0 := ne_of_gt hP
  have hTsum : (c.set j t).sum
      = ∑ i in Finset.range c.length, (c.set j t).getD i 0 := by
    rw [qsum_eq_sum_getD, hn1]
  have hUsum : (c.set j u).sum
      = ∑ i in Finset.range c.length, (c.set j u).getD i 0 := by
    rw [qsum_eq_sum_getD, hn2]
  have hPsum : p.sum = ∑ i in Finset.range c.length, p.getD i 0 := by
    rw [qsum_eq_sum_getD, hlen]
  have hside' : p.getD j 0 * ((c.set j t).sum / p.sum) ≤ t := hside
  have hUT' : (c.set j u).sum = (c.set j t).sum + (u - t) := by
    rw [qsum_set c j t hj, qsum_set c j u hj]
    ring
  have hsum1 : ∑ i in Finset.range c.length,
      ((c.set j t).getD i 0 - p.getD i 0 * ((c.set j t).sum / p.sum)) = 0 := by
    rw [Finset.sum_sub_distrib, ← hTsum, ← Finset.sum_mul, ← hPsum]
    have hcan : p.sum * ((c.set j t).sum / p.sum) = (c.set j t).sum := by
      field_simp
    rw [hcan, sub_self]
  have hsum2 : ∑ i in Finset.range c.length,
      ((c.set j u).getD i 0 - p.getD i 0 * ((c.set j u).sum / p.sum)) = 0 := by
    rw [Finset.sum_sub_distrib, ← hUsum, ← Finset.sum_mul, ← hPsum]
    have hcan : p.sum * ((c.set j u).sum / p.sum) = (c.set j u).sum := by
      field_simp
    rw [hcan, sub_self]
  have hTD1 : totalDeviation (c.set j t) p
      = ∑ i in Finset.range c.length,
          |(c.set j t).getD i 0 - p.getD i 0 * ((c.set j t).sum / p.sum)| := by
    unfold totalDeviation deviation expectedWidth
    rw [hn1]
  have hTD2 : totalDeviation (c.set j u) p
      = ∑ i in Finset.range c.length,
          |(c.set j u).getD i 0 - p.getD i 0 * ((c.set j u).sum / p.sum)| := by
    unfold totalDeviation deviation expectedWidth
    rw [hn2]
  unfold rawVariance
  rw [hTD1, hTD2]
  exact deviation_sum_mono_above c.length j
    (fun i => (c.set j t).getD i 0 - p.getD i 0 * ((c.set j t).sum / p.sum))
    (fun i => (c.set j u).getD i 0 - p.getD i 0 * ((c.set j u).sum / p.sum))
    (fun i => p.getD i 0)
    p.sum (c.set j t).sum (c.set j u).sum (u - t)
    (Finset.mem_range.mpr hj) hP hT (by linarith) hUT'
    (fun i hi => hp i (by rw [hlen]; exact Finset.mem_range.mp hi))
    hPsum.symm hsum1 hsum2
    (fun i hi hij => by
      simp only
      rw [qgetD_set_ne c j i u (fun h => hij h.symm),
        qgetD_set_ne c j i t (fun h => hij h.symm), hUT']
      field_simp
      ring)
    (by
      simp only
      rw [qgetD_set_self c j u hj, qgetD_set_self c j t hj, hUT']
      field_simp
      ring)
    (by
      simp only
      rw [qgetD_set_self c j t hj]
      linarith [hside'])
    (fun i hi hij => by
      simp only
      rw [qgetD_set_ne c j i t (fun h => hij h.symm)]
      have h0 : 0 ≤ c.getD i 0 := hc i (Finset.mem_range.mp hi) hij
      linarith)

/-- C5, lower side: moving counter `j` downward while it is at or below its
expected width cannot decrease the accumulated score. -/
theorem rawVariance_mono_below (c p : List ℚ) (j : Nat) (t u : ℚ)
    (hlen : p.length = c.length) (hj : j < c.length)
    (hp : ∀ i, i < p.length → 0 ≤ p.getD i 0)
    (hP : 0 < p.sum)
    (hU : 0 < (c.set j u).sum)
    (hut : u ≤ t)
    (hside : t ≤ expectedWidth (c.set j t) p j) :
    rawVariance (c.set j t) p ≤ rawVariance (c.set j u) p := by
  have hn1 : (c.set j t).length = c.length := List.length_set ..
  have hn2 : (c.set j u).length = c.length := List.length_set ..
  have hPne : p.sum ≠ 0 := ne_of_gt hP
  have hTsum : (c.set j t).sum
      = ∑ i in Finset.range c.length, (c.set j t).getD i 0 := by
    rw [qsum_eq_sum_getD, hn1]
  have hUsum : (c.set j u).sum
      = ∑ i in Finset.range c.length, (c.set j u).getD i 0 := by
    rw [qsum_eq_sum_getD, hn2]
  have hPsum : p.sum = ∑ i in Finset.range c.length, p.getD i 0 := by
    rw [qsum_eq_sum_getD, hlen]
  have hside' : t ≤ p.getD j 0 * ((c.set j t).sum / p.sum) := hside
  have hUT' : (c.set j u).sum = (c.set j t).sum - (t - u) := by
    rw [qsum_set c j t hj, qsum_set c j u hj]
    ring
  have hsum1 : ∑ i in Finset.range c.length,
      ((c.set j t).getD i 0 - p.getD i 0 * ((c.set j t).sum / p.sum)) = 0 := by
    rw [Finset.sum_sub_distrib, ← hTsum, ← Finset.sum_mul, ← hPsum]
    have hcan : p.sum * ((c.set j t).sum / p.sum) = (c.set j t).sum := by
      field_simp
    rw [hcan, sub_self]
  have hsum2 : ∑ i in Finset.range c.length,
      ((c.set j u).getD i 0 - p.getD i 0 * ((c.set j u).sum / p.sum)) = 0 := by
    rw [Finset.sum_sub_distrib, ← hUsum, ← Finset.sum_mul, ← hPsum]
    have hcan : p.sum * ((c.set j u).sum / p.sum) = (c.set j u).sum := by
      field_simp
    rw [hcan, sub_self]
  have hTD1 : totalDeviation (c.set j t) p
      = ∑ i in Finset.range c.length,
          |(c.set j t).getD i 0 - p.getD i 0 * ((c.set j t).sum / p.sum)| := by
    unfold totalDeviation deviation expectedWidth
    rw [hn1]
  have hTD2 : totalDeviation (c.set j u) p
      = ∑ i in Finset.range c.length,
          |(c.set j u).getD i 0 - p.getD i 0 * ((c.set j u).sum / p.sum)| := by
    unfold totalDeviation deviation expectedWidth
    rw [hn2]
  unfold rawVariance
  rw [hTD1, hTD2]
  exact deviation_sum_mono_below c.length j
    (fun i => (c.set j t).getD i 0 - p.getD i 0 * ((c.set j t).sum / p.sum))
    (fun i => (c.set j u).getD i 0 - p.getD i 0 * ((c.set j u).sum / p.sum))
    (fun i => p.getD i 0)
    p.sum (c.set j t).sum (c.set j u).sum (t - u)
    (Finset.mem_range.mpr hj) hP hU (by linarith) hUT'
    (fun i hi => hp i (by rw [hlen]; exact Finset.mem_range.mp hi))
    hPsum.symm hsum1 hsum2
    (fun i hi hij => by
      simp only
      rw [qgetD_set_ne c j i u (fun h => hij h.symm),
        qgetD_set_ne c j i t (fun h => hij h.symm), hUT']
      field_simp
      ring)
    (by
      simp only
      rw [qgetD_set_self c j u hj, qgetD_set_self c j t hj, hUT']
      field_simp
      ring)
    (by
      simp only
      rw [qgetD_set_self c j t hj]
      linarith [hside'])

/-! ### Claim C5 -/

/-- C5 counterexample: with the individual-variance rejection in play the
result is not monotone.  With pattern `[1,1,1,1]` and bound `9/10`, the
counters `[96,26,26,52]` trigger the sentinel (ratio `46/50 > 9/10` at index
0), but moving counter 3 *away* from its expected value — it sits above its
expected width at both points, and its deviation grows from `2` to `17` —
yields `[96,26,26,72]`, where no ratio is out of bounds and the returned score
`29/55` is far below the sentinel: the result decreased. -/
theorem PatternMatchVariance_mono_counterexample :
    expectedWidth [96, 26, 26, 52] [1, 1, 1, 1] 3 ≤ 52 ∧
    expectedWidth [96, 26, 26, 72] [1, 1, 1, 1] 3 ≤ 72 ∧
    deviation [96, 26, 26, 52] [1, 1, 1, 1] 3
      < deviation [96, 26, 26, 72] [1, 1, 1, 1] 3 ∧
    PatternMatchVariance [96, 26, 26, 72] [1, 1, 1, 1] (9 / 10)
      < PatternMatchVariance [96, 26, 26, 52] [1, 1, 1, 1] (9 / 10) := by
  norm_num [PatternMatchVariance, deviation, expectedWidth, rawVariance,
    totalDeviation, sentinelVariance, Finset.sum_range_succ, Finset.range_succ,
    Finset.exists_mem_insert]

/-- C5 (amended): (a) `PatternMatchVariance` returns `0` when the counters are
an exact positive integer multiple of a nonnegative pattern (for a nonnegative
individual-variance bound); and the accumulated score `totalDeviation / total`
(the value returned whenever the individual-variance rejection does not fire)
is monotonically non-decreasing as any single counter moves away from its
expected proportional value on a fixed side of it while the others stay fixed:
(b) upward while at or above the expected value, (c) downward while at or
below it.  Monotonicity of the full result can fail across the sentinel
boundary (see the counterexample). -/
theorem PatternMatchVariance_zero_and_monotone :
    (∀ (p : List ℚ) (k : Nat) (v : ℚ), 1 ≤ k → 0 ≤ v → (∀ x ∈ p, 0 ≤ x) →
      PatternMatchVariance (p.map fun x => (k : ℚ) * x) p v = 0) ∧
    (∀ (c p : List ℚ) (j : Nat) (t u : ℚ), p.length = c.length →
      j < c.length →
      (∀ i, i < c.length → i ≠ j → 0 ≤ c.getD i 0) →
      (∀ i, i < p.length → 0 ≤ p.getD i 0) →
      0 < p.sum → 0 < (c.set j t).sum → t ≤ u →
      expectedWidth (c.set j t) p j ≤ t →
      rawVariance (c.set j t) p ≤ rawVariance (c.set j u) p) ∧
    (∀ (c p : List ℚ) (j : Nat) (t u : ℚ), p.length = c.length →
      j < c.length →
      (∀ i, i < p.length → 0 ≤ p.getD i 0) →
      0 < p.sum → 0 < (c.set j u).sum → u ≤ t →
      t ≤ expectedWidth (c.set j t) p j →
      rawVariance (c.set j t) p ≤ rawVariance (c.set j u) p) :=
  ⟨PatternMatchVariance_exact_multiple, rawVariance_mono_above,
    rawVariance_mono_below⟩

/-- Witness for (amended) C5 at concrete inputs: `[3,6]` is `3 × [1,2]` and
scores `0`; on pattern `[1,1]`, raising counter 1 of `[2,5]` (above its
expected width `3.5`) to `7` raises the score (`3/7 ≤ 5/9`), and lowering
counter 0 of `[2,4]` (below its expected width `3`) to `1` raises the score
(`1/3 ≤ 3/5`). -/
theorem PatternMatchVariance_zero_and_monotone_witness :
    PatternMatchVariance ([1, 2].map fun x => ((3 : Nat) : ℚ) * x) [1, 2] 0
        = 0 ∧
    rawVariance (([2, 4] : List ℚ).set 1 5) [1, 1]
      ≤ rawVariance (([2, 4] : List ℚ).set 1 7) [1, 1] ∧
    rawVariance (([2, 4] : List ℚ).set 0 2) [1, 1]
      ≤ rawVariance (([2, 4] : List ℚ).set 0 1) [1, 1] := by
  refine ⟨?_, ?_, ?_⟩
  · exact PatternMatchVariance_zero_and_monotone.1 [1, 2] 3 0 (by norm_num)
      (le_refl 0) (fun x hx => by fin_cases hx <;> norm_num)
  · exact PatternMatchVariance_zero_and_monotone.2.1 [2, 4] [1, 1] 1 5 7
      (by norm_num) (by norm_num)
      (fun i hi hij => by
        have h2 : i < 2 := by simpa using hi
        interval_cases i
        · norm_num
        · exact absurd rfl hij)
      (fun i hi => by
        have h2 : i < 2 := by simpa using hi
        interval_cases i <;> norm_num)
      (by norm_num) (by norm_num [List.set]) (by norm_num)
      (by norm_num [expectedWidth, List.set])
  · exact PatternMatchVariance_zero_and_monotone.2.2 [2, 4] [1, 1] 0 2 1
      (by norm_num) (by norm_num)
      (fun i hi => by
        have h2 : i < 2 := by simpa using hi
        interval_cases i <;> norm_num)
      (by norm_num) (by norm_num [List.set]) (by norm_num)
      (by norm_num [expectedWidth, List.set])

end RowReader
